import Mathlib

/-!
Verification of the EchoAgent prompting subsystem (context assembly,
budgeting, rendering, history compaction and conversation-state lifecycle).

The Python sources are shallowly embedded:
* Python `str` values become `Str := List Char` (one entry per code point,
  matching Python's unit of slicing and `len`);
* Python `int` becomes `Int` (`Nat` where the source value is a length);
* fallible code returns `Option`;
* `None`-able values become `Option`.

Sources embedded below:
* `echoagent/agent/prompting/blocks.py` (`ContextBlock`)
* `echoagent/context/policy.py` (`BlockPolicy`, `ContextPolicy`,
  `apply_block_policy`)
* `echoagent/agent/prompting/budget.py` (`CharBudgetPolicy`)
* `echoagent/agent/prompting/renderer.py` (`PromptRenderer.render`)
* `echoagent/agent/prompting/history_renderer.py`
* `echoagent/agent/prompting/assembler.py` (`ContextAssembler`)
* `echoagent/agent/prompting/instruction_builder.py` (`InstructionBuilder`)
* `echoagent/context/state.py` (`ConversationState`, iteration records)
-/

/-- Python strings are modelled as lists of characters. -/
abbrev Str := List Char

/-- Shorthand turning a Lean string literal into the `Str` model. -/
def s2l (s : String) : Str := s.data

/-- Left-brace character (written via its code point). -/
def lbrace : Char := Char.ofNat 123

/-- Right-brace character (written via its code point). -/
def rbrace : Char := Char.ofNat 125

/-- Python `str.isspace` / the character class stripped by `str.strip()`,
restricted to the ASCII whitespace characters (space, tab, newline,
carriage return, vertical tab, form feed). -/
def pyWhitespace (c : Char) : Bool :=
  c = ' ' || c = '\t' || c = '\n' || c = '\r' || c = Char.ofNat 11 || c = Char.ofNat 12

/-- Truthiness of `s.strip()` in Python: the stripped string is non-empty
iff some character is not whitespace. -/
def hasVisible (s : Str) : Bool := s.any (fun c => !pyWhitespace c)

/-- Python `s.lstrip()`. -/
def lstripWs (s : Str) : Str := s.dropWhile pyWhitespace

/-- Python `s.rstrip()`. -/
def rstripWs (s : Str) : Str := (s.reverse.dropWhile pyWhitespace).reverse

/-- Python `s.strip()`. -/
def stripWs (s : Str) : Str := lstripWs (rstripWs s)

/-- Length of the leading whitespace run. -/
def leadWs (s : Str) : Nat := (s.takeWhile pyWhitespace).length

/-- Length of the trailing whitespace run. -/
def trailWs (s : Str) : Nat := leadWs s.reverse

/-- Number of characters from the first non-whitespace character to the end
(`0` when the string is all whitespace). -/
def leftSpan (s : Str) : Nat := s.length - leadWs s

/-- Number of characters from the start to the last non-whitespace character
(`0` when the string is all whitespace). -/
def rightSpan (s : Str) : Nat := s.length - trailWs s

/-- Number of characters from the first to the last non-whitespace character
(`0` when the string is all whitespace). -/
def spanWs (s : Str) : Nat := s.length - leadWs s - trailWs s

/-- Python `sep.join(parts)`. -/
def joinSep (sep : Str) : List Str → Str
  | [] => []
  | [s] => s
  | s :: rest => s ++ sep ++ joinSep sep rest

/-- Python f-string rendering of a `None`-able string (`None` prints as
`"None"`); used where the source interpolates an `Optional[str]`. -/
def strOfOpt (v : Option Str) : Str :=
  match v with
  | none => s2l "None"
  | some s => s

/-- Digit renderer; the fuel argument (any bound on the digit count, here
the number itself plus one) only makes the recursion structural. -/
def natStrAux : Nat → Nat → Str
  | 0, _ => []
  | fuel + 1, n =>
    if n < 10 then [Char.ofNat (48 + n)]
    else natStrAux fuel (n / 10) ++ [Char.ofNat (48 + n % 10)]

/-- Decimal rendering of a natural number, as Python `str(n)` for `n ≥ 0`. -/
def natStr (n : Nat) : Str := natStrAux (n + 1) n

/-!  ## Context blocks and block policies

From `echoagent/agent/prompting/blocks.py` and `echoagent/context/policy.py`.
Budgets and per-block caps are Python ints (possibly negative), hence `Int`.
-/

/-- `ContextBlock` dataclass from `blocks.py`. -/
structure ContextBlock where
  name : String
  content : Str
  priority : Int := 0
  max_chars : Option Int := none
deriving Repr, DecidableEq

/-- `BlockPolicy` dataclass from `policy.py`. -/
structure BlockPolicy where
  enabled : Bool := true
  max_chars : Option Int := none
deriving Repr, DecidableEq

/-- `ContextPolicy` dataclass from `policy.py`; the `blocks` dict is an
association list with unique keys. -/
structure ContextPolicy where
  total_budget : Option Int := none
  blocks : List (String × BlockPolicy) := []
deriving Repr, DecidableEq

/-- `ContextPolicy.is_enabled`. -/
def ContextPolicy.is_enabled (p : ContextPolicy) (block_name : String) : Bool :=
  match p.blocks.lookup block_name with
  | some bp => bp.enabled
  | none => true

/-- `apply_block_policy` from `policy.py` (`replace(block_policy)` copies the
frozen dataclass, which is the identity on values). -/
def apply_block_policy (block_name : String) (policy : ContextPolicy) : Option BlockPolicy :=
  if policy.is_enabled block_name = false then none
  else
    match policy.blocks.lookup block_name with
    | none => some {}
    | some bp => some bp

/-!  ## Character budgeter

From `echoagent/agent/prompting/budget.py` (`CharBudgetPolicy`).  The running
`total` is an `Int` exactly as in the source.  `ContextBudgeter` with the
default policy delegates to these functions unchanged.
-/

/-- Block names squeezed by the global budget, in trim-priority order; the
same tuple also selects tail-keeping truncation. -/
def trimmableNames : List String :=
  ["PREVIOUS_ITERATIONS", "MESSAGE_HISTORY", "TOOL_RESULTS", "CURRENT_INPUT"]

/-- Negation of the newline test used by `content.split("\n", 1)`. -/
def notNl (c : Char) : Bool := c ≠ '\n'

/-- First component of Python `content.split("\n", 1)`. -/
def headerOf (content : Str) : Str := content.takeWhile notNl

/-- Second component of Python `content.split("\n", 1)` (meaningful when the
content contains a newline). -/
def bodyOf (content : Str) : Str := (content.dropWhile notNl).tail

/-- `CharBudgetPolicy._slice_content`: truncate `content` to `limit`
characters, keeping head or tail, preserving the header line (text up to the
first newline) when it fits. -/
def slice_content (content : Str) (limit : Int) (keep_tail : Bool) : Str :=
  if limit ≤ 0 then []
  else if (content.length : Int) ≤ limit then content
  else
    let l := limit.toNat
    if '\n' ∈ content then
      let header := headerOf content
      let body := bodyOf content
      if (header.length : Int) ≥ limit then header.take l
      else
        let remaining : Int := limit - header.length - 1
        if remaining ≤ 0 then header.take l
        else
          let r := remaining.toNat
          let body_slice := if keep_tail then body.drop (body.length - r) else body.take r
          header ++ '\n' :: body_slice
    else
      if keep_tail then content.drop (content.length - l) else content.take l

/-- `CharBudgetPolicy._apply_block_limit`: apply a block's own `max_chars`
cap (`replace(block)` copies, which is the identity on values). -/
def apply_block_limit (b : ContextBlock) : ContextBlock :=
  match b.max_chars with
  | none => b
  | some m =>
    if (b.content.length : Int) ≤ m then b
    else
      let keep_tail := b.name ∈ trimmableNames
      { b with content := slice_content b.content m keep_tail }

/-- `CharBudgetPolicy._trim_block_to_fit`: shrink one block by the current
excess, returning the updated running total and block. -/
def trim_block_to_fit (b : ContextBlock) (total : Int) (max_chars : Int) :
    Int × ContextBlock :=
  let excess := total - max_chars
  if excess ≤ 0 then (total, b)
  else
    let current_len : Int := b.content.length
    let allowed := current_len - excess
    if allowed ≤ 0 then (total - current_len, { b with content := [] })
    else
      let keep_tail := b.name ∈ trimmableNames
      let content := slice_content b.content allowed keep_tail
      (total - current_len + content.length, { b with content := content })

/-- Inner loop of `CharBudgetPolicy.trim`: find the first block with the given
name and shrink it to fit (the Python loop `break`s after the first match). -/
def trim_first (name : String) (max_chars : Int) (total : Int) :
    List ContextBlock → Int × List ContextBlock
  | [] => (total, [])
  | b :: rest =>
    if b.name = name then
      let p := trim_block_to_fit b total max_chars
      (p.1, p.2 :: rest)
    else
      let p := trim_first name max_chars total rest
      (p.1, b :: p.2)

/-- Outer loop of `CharBudgetPolicy.trim` over the fixed priority order of
trimmable names, stopping as soon as the total fits. -/
def trim_names (max_chars : Int) : List String → Int → List ContextBlock → List ContextBlock
  | [], _, blocks => blocks
  | n :: ns, total, blocks =>
    if total ≤ max_chars then blocks
    else
      let p := trim_first n max_chars total blocks
      trim_names max_chars ns p.1 p.2

/-- `CharBudgetPolicy._drop_empty`: keep blocks whose content is non-empty
and not all whitespace. -/
def drop_empty (blocks : List ContextBlock) : List ContextBlock :=
  blocks.filter (fun b => !b.content.isEmpty && hasVisible b.content)

/-- Total content length of a block list. -/
def totalLen (blocks : List ContextBlock) : Nat :=
  (blocks.map (fun b => b.content.length)).sum

/-- `CharBudgetPolicy.trim`: `None` budget returns the blocks unchanged;
budget ≤ 0 empties the list; otherwise per-block caps are applied, then the
trimmable names are squeezed in order, then empty blocks are dropped. -/
def trim (blocks : List ContextBlock) (max_chars : Option Int) : List ContextBlock :=
  match max_chars with
  | none => blocks
  | some m =>
    if m ≤ 0 then []
    else
      let trimmed := blocks.map apply_block_limit
      let total : Int := totalLen trimmed
      if total ≤ m then drop_empty trimmed
      else drop_empty (trim_names m trimmableNames total trimmed)

/-!  ## Renderer

From `echoagent/agent/prompting/renderer.py`.  Python's `sorted` is a stable
sort; the sort key `(-priority, original index)` is injective on `enumerate`d
input, so any correct sorting algorithm produces the same list.  We use
insertion sort (`sortLe`/`insertLe`), which is stable for a total `le`.
-/

/-- Comparison `(-priority, index) ≤ (-priority, index)` used by
`PromptRenderer.render`. -/
def blockKeyLe (x y : Nat × ContextBlock) : Bool :=
  y.2.priority < x.2.priority || (x.2.priority = y.2.priority && x.1 ≤ y.1)

/-- Insert into a sorted list (stable: placed before later equal keys). -/
def insertLe (le : α → α → Bool) (a : α) : List α → List α
  | [] => [a]
  | b :: bs => if le a b then a :: b :: bs else b :: insertLe le a bs

/-- Stable insertion sort. -/
def sortLe (le : α → α → Bool) : List α → List α
  | [] => []
  | a :: as => insertLe le a (sortLe le as)

/-- Body of `PromptRenderer.render` after the special cases: stable-sort the
enumerated blocks by `(-priority, index)`, keep non-blank contents, join with
a blank line and strip the result. -/
def renderJoin (blocks : List ContextBlock) : Str :=
  let ordered := sortLe blockKeyLe blocks.enum
  let contents := (ordered.map (fun p => p.2.content)).filter
    (fun c => !c.isEmpty && hasVisible c)
  stripWs (joinSep ['\n', '\n'] contents)

/-- `PromptRenderer.render`: empty input renders as the empty string; a
single `RUNTIME_TEMPLATE` block is returned verbatim; otherwise blocks are
ordered, filtered, joined and stripped. -/
def render (blocks : List ContextBlock) : Str :=
  match blocks with
  | [] => []
  | [b] => if b.name = "RUNTIME_TEMPLATE" then b.content else renderJoin [b]
  | bs => renderJoin bs

/-!  ## Conversation state

From `echoagent/context/state.py`.  Modelling choices:
* tool outputs (`ToolAgentOutput.output`) and recorded payload values are
  modelled by their rendered strings (the renderers only ever stringify
  them);
* `created_at` timestamps and `started_at` are rationals (seconds);
* object identity in the Python lists is represented positionally: the
  state API only ever creates fresh records, so distinct positions hold
  distinct objects.
-/

/-- `IterationDigest` model from `state.py`. -/
structure IterationDigest where
  summary : Str := []
  facts : List Str := []
  decisions : List Str := []
  open_questions : List Str := []
  action_items : List Str := []
deriving Repr, DecidableEq

/-- `BaseIterationRecord` model from `state.py`; `tools` keeps each tool
output's `output` text, `payloads` keeps each payload's rendering. -/
structure BaseIterationRecord where
  index : Nat
  observation : Option Str := none
  tools : List Str := []
  payloads : List Str := []
  status : String := "pending"
  digest : Option IterationDigest := none
  summarized : Bool := false
deriving Repr, DecidableEq

/-- `BaseIterationRecord.is_complete`. -/
def BaseIterationRecord.is_complete (it : BaseIterationRecord) : Bool :=
  it.status = "complete"

/-- `ContextEvent` model from `state.py`; `meta` is a string-keyed dict whose
values are modelled by their rendered strings (`tool_name`, `name`,
`sources`, `artifacts` are the keys the assembler reads). -/
structure ContextEvent where
  type : String
  content : Str
  meta : List (String × Str) := []
  created_at : Int := 0
deriving Repr, DecidableEq

/-- Skill entry as consumed by `ConversationState.available_skills_text`
(`_get_skill_field` reads `name`, `description` and `tags`; tags are
modelled by their already-stringified renderings). -/
structure SkillEntry where
  name : Option Str := none
  description : Option Str := none
  tags : List Str := []
deriving Repr, DecidableEq

/-- `ExecutionContext` model from `state.py`. -/
structure ExecutionContext where
  active_skill_id : Option Str := none
  allowed_tools : Option (List Str) := none
  model_override : Option Str := none
  disable_model_invocation : Bool := false
deriving Repr, DecidableEq

/-- `ConversationState` model from `state.py` (`available_agents` and the
skill/meta dicts keep insertion order as association lists). -/
structure ConversationState where
  iterations : List BaseIterationRecord := []
  events : List ContextEvent := []
  final_report : Option Str := none
  started_at : Option Int := none
  complete : Bool := false
  summary : Option Str := none
  query : Option Str := none
  formatted_query : Option Str := none
  available_agents : List (Str × Str) := []
  available_skills : List SkillEntry := []
  active_skill_markdown : Str := []
  skills_index_text : Str := []
  active_skill_text : Str := []
  max_time_minutes : Option Int := none
  active_skill : Option (List (String × Str)) := none
  execution : ExecutionContext := {}
deriving Repr, DecidableEq

/-- `ConversationState.begin_iteration`: append a fresh pending record with
index `len(iterations) + 1`. -/
def begin_iteration (s : ConversationState) : ConversationState :=
  { s with iterations := s.iterations ++ [{ index := s.iterations.length + 1 }] }

/-- Append a payload to the last iteration record
(`BaseIterationRecord.add_payload` on the object returned by
`current_iteration`). -/
def add_payload_last (s : ConversationState) (v : Str) : ConversationState :=
  { s with iterations :=
      s.iterations.dropLast ++
        match s.iterations.getLast? with
        | none => []
        | some it => [{ it with payloads := it.payloads ++ [v] }] }

/-- `ConversationState.record_payload`: append to `current_iteration` when
the iteration list is non-empty, else `begin_iteration()` first. -/
def record_payload (s : ConversationState) (v : Str) : ConversationState :=
  if s.iterations.isEmpty then add_payload_last (begin_iteration s) v
  else add_payload_last s v

/-!  ## History renderer

From `echoagent/agent/prompting/history_renderer.py`.  `_render_payload` is
the identity on our pre-rendered payload strings.  The `id()`-based raw set
is represented by list positions (the state API never aliases records).
-/

/-- `render_iteration_block`: raw rendering of one iteration. -/
def render_iteration_block (it : BaseIterationRecord) : Str :=
  let lines : List Str := [s2l "[ITERATION " ++ natStr it.index ++ s2l "]"]
  let lines := lines ++
    match it.observation with
    | some obs => if obs.isEmpty then [] else [s2l "<thought>\n" ++ obs ++ s2l "\n</thought>"]
    | none => []
  let lines := lines ++
    (if it.payloads.isEmpty then []
     else [s2l "<payloads>\n" ++ joinSep ['\n'] it.payloads ++ s2l "\n</payloads>"])
  let lines := lines ++
    (if it.tools.isEmpty then []
     else [s2l "<findings>\n" ++ joinSep ['\n'] it.tools ++ s2l "\n</findings>"])
  stripWs (joinSep (s2l "\n\n") lines)

/-- `_render_digest_list`. -/
def render_digest_list (label : Str) (items : List Str) : List Str :=
  if items.isEmpty then [label ++ s2l ": []"]
  else (label ++ [':']) :: items.map (fun item => s2l "- " ++ item)

/-- `render_iteration_digest_block`: digest rendering, falling back to raw
when no digest is present. -/
def render_iteration_digest_block (it : BaseIterationRecord) : Str :=
  match it.digest with
  | none => render_iteration_block it
  | some digest =>
    let lines : List Str := [s2l "[ITERATION " ++ natStr it.index ++ s2l "]", s2l "<digest>"]
    let lines := lines ++ [s2l "summary: " ++ digest.summary]
    let lines := lines ++ render_digest_list (s2l "facts") digest.facts
    let lines := lines ++ render_digest_list (s2l "decisions") digest.decisions
    let lines := lines ++ render_digest_list (s2l "open_questions") digest.open_questions
    let lines := lines ++ render_digest_list (s2l "action_items") digest.action_items
    let lines := lines ++ [s2l "</digest>"]
    stripWs (joinSep ['\n'] lines)

/-- Candidate list of `render_iteration_history`: position, record and
current-flag for each iteration that is complete or the included current
one, minus summarized ones in `only_unsummarized` mode. -/
def historyCandidates (iterations : List BaseIterationRecord) (include_current : Bool)
    (only_unsummarized : Bool) (current_index : Option Nat) :
    List (Nat × BaseIterationRecord × Bool) :=
  iterations.enum.filterMap (fun p =>
    let is_current := current_index = some p.1
    if p.2.is_complete ∨ (include_current ∧ is_current) then
      if only_unsummarized ∧ p.2.summarized then none
      else some (p.1, p.2, is_current)
    else none)

/-- Positions whose records render raw: the last `raw_keep_last` completed
candidates (the source's `id()`-set, positionally). -/
def rawTailIds (candidates : List (Nat × BaseIterationRecord × Bool))
    (raw_keep_last : Nat) : List Nat :=
  let completed := candidates.filter (fun c => c.2.1.is_complete)
  let raw_tail := if raw_keep_last > 0 then
      completed.drop (completed.length - raw_keep_last) else []
  raw_tail.map (fun c => c.1)

/-- `render_iteration_history` (with `raw_keep_last` defaulting to 2 at the
call sites). -/
def render_iteration_history (iterations : List BaseIterationRecord)
    (include_current : Bool) (only_unsummarized : Bool)
    (current_index : Option Nat) (raw_keep_last : Nat) : Str :=
  let candidates := historyCandidates iterations include_current only_unsummarized current_index
  let raw_ids := rawTailIds candidates raw_keep_last
  let blocks := candidates.filterMap (fun c =>
    let block :=
      if c.2.2 ∧ ¬ c.2.1.is_complete then render_iteration_block c.2.1
      else if c.1 ∈ raw_ids then render_iteration_block c.2.1
      else render_iteration_digest_block c.2.1
    if block.isEmpty then none else some block)
  stripWs (joinSep (s2l "\n\n") blocks)

/-!  ## State attribute lookup and properties

Template placeholders are resolved by `getattr(state, placeholder, None)`
and rendered with `str(...)`.  `stateAttr` models this lookup over the data
attributes and properties of `ConversationState`; `now` is the wall-clock
reading used by the `elapsed_minutes` property (`time.time()`), threaded as
an explicit parameter.  Attributes outside this table (bound methods and the
private plumbing fields) are treated as absent.
-/

/-- Python `str()` of the float `num / den` for the values produced by
`elapsed_minutes`/`started_at` (timestamps are modelled at whole-second
granularity): exact on integral quotients (rendered as `"n.0"`); for
non-integral quotients a `num/den` placeholder stands in for the float
digits, which no theorem below evaluates. -/
def pyFloatQuotStr (num : Int) (den : Nat) : Str :=
  let sign : Str := if num < 0 then ['-'] else []
  let a := num.natAbs
  if a % den = 0 ∧ den ≠ 0 then sign ++ natStr (a / den) ++ s2l ".0"
  else sign ++ natStr a ++ ['/'] ++ natStr den

/-!  Python `str()`/`repr()` of the embedded values, as produced by the
`str(value)` call in the `getattr` placeholder loop.  The embedding
identifies each Python object with its canonical embedded form: strings
contain no characters that `repr` escapes, skill entries are dicts with the
`name`/`description`/`tags` keys the code reads, tool outputs carry their
`output` text (empty `sources`), payloads and tags are their rendered
strings, and timestamps are whole seconds.  pydantic v2 renders a model as
`field=repr(value)` joined by spaces for `str` and as
`ClassName(field=repr(value), ...)` for `repr`. -/

/-- Python `repr` of a string without escape-needing characters. -/
def pyReprStr (s : Str) : Str := '\'' :: (s ++ ['\''])

/-- Python `repr` of an `Optional[str]`. -/
def pyReprOptStr (v : Option Str) : Str :=
  match v with
  | none => s2l "None"
  | some s => pyReprStr s

/-- Python `repr` of a list of strings. -/
def pyReprStrList (l : List Str) : Str :=
  '[' :: joinSep (s2l ", ") (l.map pyReprStr) ++ [']']

/-- Python `repr` of a string-keyed dict of strings (`String` keys). -/
def pyReprDictS (l : List (String × Str)) : Str :=
  lbrace :: joinSep (s2l ", ") (l.map (fun p =>
    pyReprStr (s2l p.1) ++ s2l ": " ++ pyReprStr p.2)) ++ [rbrace]

/-- Python `repr` of a string-keyed dict of strings (`Str` keys). -/
def pyReprDict (l : List (Str × Str)) : Str :=
  lbrace :: joinSep (s2l ", ") (l.map (fun p =>
    pyReprStr p.1 ++ s2l ": " ++ pyReprStr p.2)) ++ [rbrace]

/-- Python `str`/`repr` of a bool. -/
def pyStrBool (b : Bool) : Str := if b then s2l "True" else s2l "False"

/-- Python `repr` of a `ToolAgentOutput` (canonical form: empty `sources`). -/
def pyReprTool (output : Str) : Str :=
  s2l "ToolAgentOutput(output=" ++ pyReprStr output ++ s2l ", sources=[])"

/-- Python `repr` of an `IterationDigest`. -/
def pyReprDigest (d : IterationDigest) : Str :=
  s2l "IterationDigest(summary=" ++ pyReprStr d.summary ++
  s2l ", facts=" ++ pyReprStrList d.facts ++
  s2l ", decisions=" ++ pyReprStrList d.decisions ++
  s2l ", open_questions=" ++ pyReprStrList d.open_questions ++
  s2l ", action_items=" ++ pyReprStrList d.action_items ++ [')']

/-- The `field=repr(value)` fragments of a `BaseIterationRecord`. -/
def pyFieldsIterationRecord (it : BaseIterationRecord) : List Str :=
  [s2l "index=" ++ natStr it.index,
   s2l "observation=" ++ pyReprOptStr it.observation,
   s2l "tools=" ++ ('[' :: joinSep (s2l ", ") (it.tools.map pyReprTool) ++ [']']),
   s2l "payloads=" ++ pyReprStrList it.payloads,
   s2l "status=" ++ pyReprStr (s2l it.status),
   s2l "digest=" ++ (match it.digest with
     | none => s2l "None"
     | some d => pyReprDigest d),
   s2l "summarized=" ++ pyStrBool it.summarized]

/-- Python `str()` of a `BaseIterationRecord` (pydantic `__str__`). -/
def pyStrIterationRecord (it : BaseIterationRecord) : Str :=
  joinSep [' '] (pyFieldsIterationRecord it)

/-- Python `repr()` of a `BaseIterationRecord` (pydantic `__repr__`). -/
def pyReprIterationRecord (it : BaseIterationRecord) : Str :=
  s2l "BaseIterationRecord(" ++ joinSep (s2l ", ") (pyFieldsIterationRecord it) ++ [')']

/-- Python `repr()` of a `ContextEvent`. -/
def pyReprContextEvent (e : ContextEvent) : Str :=
  s2l "ContextEvent(type=" ++ pyReprStr (s2l e.type) ++
  s2l ", content=" ++ pyReprStr e.content ++
  s2l ", meta=" ++ pyReprDictS e.meta ++
  s2l ", created_at=" ++ pyFloatQuotStr e.created_at 1 ++ [')']

/-- Python `repr` of a skill entry (canonical dict form). -/
def pyReprSkill (it : SkillEntry) : Str :=
  lbrace :: s2l "'name': " ++ pyReprOptStr it.name ++
  s2l ", 'description': " ++ pyReprOptStr it.description ++
  s2l ", 'tags': " ++ pyReprStrList it.tags ++ [rbrace]

/-- Python `str()` of an `ExecutionContext` (pydantic `__str__`). -/
def pyStrExecution (e : ExecutionContext) : Str :=
  s2l "active_skill_id=" ++ pyReprOptStr e.active_skill_id ++
  s2l " allowed_tools=" ++ (match e.allowed_tools with
    | none => s2l "None"
    | some l => pyReprStrList l) ++
  s2l " model_override=" ++ pyReprOptStr e.model_override ++
  s2l " disable_model_invocation=" ++ pyStrBool e.disable_model_invocation

/-- Python `str()` of a list rendered through an element `repr`. -/
def pyStrList {α : Type} (f : α → Str) (l : List α) : Str :=
  '[' :: joinSep (s2l ", ") (l.map f) ++ [']']

/-- `ConversationState.iteration` property. -/
def stateIteration (s : ConversationState) : Str :=
  match s.iterations.getLast? with
  | some it => natStr it.index
  | none => s2l "1"

/-- `ConversationState.observation` property. -/
def stateObservation (s : ConversationState) : Str :=
  match s.iterations.getLast? with
  | some it => match it.observation with
    | some obs => obs
    | none => []
  | none => []

/-- `ConversationState.elapsed_minutes` property at wall-clock time `now`
(`str((time.time() - started_at) / 60)`). -/
def elapsed_minutes (now : Int) (s : ConversationState) : Str :=
  match s.started_at with
  | none => s2l "0"
  | some t0 => pyFloatQuotStr (now - t0) 60

/-- `ConversationState.available_agents_text` property. -/
def available_agents_text (s : ConversationState) : Str :=
  if s.available_agents.isEmpty then []
  else joinSep ['\n'] (s.available_agents.map (fun p =>
    s2l "- " ++ p.1 ++ s2l ": " ++ p.2))

/-- One line of `available_skills_text` for a skill entry (`None` when both
name and description are falsy). -/
def skillLine (item : SkillEntry) : Option Str :=
  let nameTruthy := match item.name with
    | some s => !s.isEmpty
    | none => false
  let descTruthy := match item.description with
    | some s => !s.isEmpty
    | none => false
  if !nameTruthy && !descTruthy then none
  else
    let line := if descTruthy then
        s2l "- " ++ strOfOpt item.name ++ s2l ": " ++ strOfOpt item.description
      else s2l "- " ++ strOfOpt item.name
    let tag_text := joinSep (s2l ", ") (item.tags.filter (fun t => !t.isEmpty))
    if item.tags.isEmpty ∨ tag_text.isEmpty then some line
    else some (line ++ s2l " [tags: " ++ tag_text ++ [']'])

/-- `ConversationState.available_skills_text` property. -/
def available_skills_text (s : ConversationState) : Str :=
  if !s.skills_index_text.isEmpty then s.skills_index_text
  else if s.available_skills.isEmpty then []
  else joinSep ['\n'] (s.available_skills.filterMap skillLine)

/-- `ConversationState.findings_text` / the `findings` property. -/
def findings_text (s : ConversationState) : Str :=
  let findings := s.iterations.flatMap (fun it => it.tools)
  if findings.isEmpty then [] else stripWs (joinSep (s2l "\n\n") findings)

/-- Current-iteration position passed to the history renderer by the
deprecated `iteration_history` accessors (`iterations[-1]`). -/
def lastIndexPos (s : ConversationState) : Option Nat :=
  if s.iterations.isEmpty then none else some (s.iterations.length - 1)

/-- `ConversationState.history` property (`iteration_history(False)` with the
`"No previous iterations."` fallback). -/
def stateHistory (s : ConversationState) : Str :=
  let h := render_iteration_history s.iterations false false (lastIndexPos s) 2
  if h.isEmpty then s2l "No previous iterations." else h

/-- Time-independent, non-raising part of the `getattr(state, name, None)`
lookup: the public data attributes and properties of `ConversationState`
other than `elapsed_minutes` (time-dependent) and `current_iteration`
(raising), each followed by `str(...)`.  Fields yield `none` exactly when
the Python attribute is `None`. -/
def stateAttrBase (s : ConversationState) (name : Str) : Option Str :=
  if name = s2l "query" then s.query
  else if name = s2l "formatted_query" then s.formatted_query
  else if name = s2l "summary" then s.summary
  else if name = s2l "final_report" then s.final_report
  else if name = s2l "last_summary" then some (match s.summary with
    | some t => t
    | none => [])
  else if name = s2l "iteration" then some (stateIteration s)
  else if name = s2l "observation" then some (stateObservation s)
  else if name = s2l "history" then some (stateHistory s)
  else if name = s2l "conversation_history" then
    some (render_iteration_history s.iterations true false (lastIndexPos s) 2)
  else if name = s2l "available_agents_text" then some (available_agents_text s)
  else if name = s2l "available_skills_text" then some (available_skills_text s)
  else if name = s2l "skills_index_text" then some s.skills_index_text
  else if name = s2l "active_skill_text" then some s.active_skill_text
  else if name = s2l "active_skill_markdown" then some s.active_skill_markdown
  else if name = s2l "findings" then some (findings_text s)
  else if name = s2l "complete" then some (if s.complete then s2l "True" else s2l "False")
  else if name = s2l "started_at" then s.started_at.map (fun t => pyFloatQuotStr t 1)
  else if name = s2l "iterations" then some (pyStrList pyReprIterationRecord s.iterations)
  else if name = s2l "events" then some (pyStrList pyReprContextEvent s.events)
  else if name = s2l "available_agents" then some (pyReprDict s.available_agents)
  else if name = s2l "available_skills" then some (pyStrList pyReprSkill s.available_skills)
  else if name = s2l "active_skill" then s.active_skill.map pyReprDictS
  else if name = s2l "execution" then some (pyStrExecution s.execution)
  else if name = s2l "max_time_minutes" then
    s.max_time_minutes.map (fun v => pyFloatQuotStr v 1)
  else none

/-- The full `getattr(state, name, None)` lookup at wall-clock `now`, with
`str(...)` applied to the result: `none` is a raised exception (only the
`current_iteration` property raises — a `ValueError` on an empty iteration
list, which `getattr`'s default does not suppress), `some none` is a `None`
result (absent attribute, or a `None`-valued field), and `some (some v)` is
a value rendering as `v`.  The attribute names are distinct, so resolving
`current_iteration` and the time-dependent `elapsed_minutes` property first
is equivalent to the source's flat attribute table.  Bound methods and the
pydantic plumbing are outside the modelled attribute set. -/
def stateAttr (now : Int) (s : ConversationState) (name : Str) : Option (Option Str) :=
  if name = s2l "current_iteration" then
    match s.iterations.getLast? with
    | none => none
    | some it => some (some (pyStrIterationRecord it))
  else if name = s2l "elapsed_minutes" then some (some (elapsed_minutes now s))
  else some (stateAttrBase s name)

/-!  ## Template scanning and formatting

`ContextAssembler._build_runtime_template_block` collects placeholders with
`re.findall` over the template and renders it through
`ResolvedProfile.render`, which calls Python's `str.format`.  `pyFormat`
models the fragment of `str.format` exercised here: literal text, `\x7b\x7b`
and `\x7d\x7d` escapes, and simple replacement fields looked up in the
keyword dict; any other replacement field (missing key, stray brace) raises
in Python and yields `none` here.
-/

/-- Character class of the placeholder regex `[a-z_]`. -/
def isPlaceholderChar (c : Char) : Bool := ('a' ≤ c && c ≤ 'z') || c = '_'

/-- Scanner for `re.findall` of the placeholder pattern; every step consumes
at least one character, so the fuel argument (initially the string length)
never runs out and only makes the recursion structural. -/
def findPlaceholdersAux : Nat → Str → List Str
  | 0, _ => []
  | _, [] => []
  | fuel + 1, c :: rest =>
    if c = lbrace then
      let name := rest.takeWhile isPlaceholderChar
      let after := rest.dropWhile isPlaceholderChar
      if !name.isEmpty ∧ after.head? = some rbrace then
        name :: findPlaceholdersAux fuel after.tail
      else findPlaceholdersAux fuel rest
    else findPlaceholdersAux fuel rest

/-- `re.findall` of the placeholder pattern (an open brace, one or more
lowercase/underscore characters, a close brace), left to right,
non-overlapping. -/
def findPlaceholders (s : Str) : List Str := findPlaceholdersAux s.length s

/-- Keyword-dict lookup context for `str.format`. -/
abbrev FormatCtx := Str → Option Str

/-- Negation of the close-brace test used when scanning a replacement
field. -/
def notRb (c : Char) : Bool := c ≠ rbrace

/-- Scanner for Python `str.format`; every step consumes at least one
character, so the fuel argument (initially the string length) never runs
out and only makes the recursion structural. -/
def pyFormatAux (ctx : FormatCtx) : Nat → Str → Option Str
  | _, [] => some []
  | 0, _ :: _ => none
  | fuel + 1, c :: rest =>
    if c = lbrace then
      match rest with
      | [] => none
      | c2 :: rest2 =>
        if c2 = lbrace then (pyFormatAux ctx fuel rest2).map (fun t => lbrace :: t)
        else
          let fname := (c2 :: rest2).takeWhile notRb
          match (c2 :: rest2).dropWhile notRb with
          | [] => none
          | _ :: rest3 =>
            match ctx fname with
            | none => none
            | some v => (pyFormatAux ctx fuel rest3).map (fun t => v ++ t)
    else if c = rbrace then
      match rest with
      | [] => none
      | c2 :: rest2 =>
        if c2 = rbrace then (pyFormatAux ctx fuel rest2).map (fun t => rbrace :: t)
        else none
    else (pyFormatAux ctx fuel rest).map (fun t => c :: t)

/-- Model of Python `str.format(**kwargs)` on the fragment used by runtime
templates: literal text, doubled-brace escapes, and simple replacement
fields looked up in the keyword dict; `none` models a raised
`KeyError`/`ValueError`. -/
def pyFormat (ctx : FormatCtx) (s : Str) : Option Str := pyFormatAux ctx s.length s

/-!  ## Context assembler

From `echoagent/agent/prompting/assembler.py`.  The profile is modelled by
its `runtime_template` and canonical context policy
(`normalize_context_policy` is the identity on an already-canonical
`ContextPolicy`, which is the only case the claims exercise).  The payload
is modelled by its pydantic-ness, its `model_dump()` fields (values
stringified, `None` distinguished) and nothing else; `payload_str` is the
separately provided serialization.  `assembleM` returns `none` when the
Python call would raise (template formatting error).
-/

/-- Profile as consumed by the assembler and instruction builder. -/
structure ResolvedProfile where
  runtime_template : Str := []
  context_policy : ContextPolicy := {}
  policies_context_budget : Option Int := none
deriving Repr

/-- Payload as consumed by the assembler: `isModel` is
`isinstance(payload, BaseModel)`; `fields` models `model_dump().items()` in
order, values pre-stringified with `None` kept distinct. -/
structure PayloadData where
  isModel : Bool := false
  fields : List (Str × Option Str) := []
deriving Repr

/-- The `runtime_input` entry plus the placeholder `getattr` loop of
`_build_runtime_template_block`
(`context_dict["runtime_input"] = payload_str or ""`, then every remaining
placeholder resolves to the stringified state attribute, defaulting to the
empty string).  The loop raises — `none` here — exactly when some
placeholder not already written as `runtime_input` hits the raising
`current_iteration` lookup; which placeholder raises first is irrelevant
because the exception propagates and partial writes are unobservable.  The
dict is represented as a lookup function; Python's `set` iteration order is
irrelevant because each placeholder is written independently, and the
guarded `none` match arm in the body is unreachable. -/
def templateBaseCtx (now : Int) (state : ConversationState)
    (payload : Option PayloadData) (payload_str : Option Str)
    (placeholders : List Str) : Option FormatCtx :=
  if placeholders.any (fun ph =>
      !(decide (ph = s2l "runtime_input") && payload.isSome) &&
        (stateAttr now state ph).isNone) then
    none
  else
    some (fun name =>
      if name ∈ placeholders then
        if name = s2l "runtime_input" ∧ payload.isSome then
          some (match payload_str with
            | some p => p
            | none => [])
        else
          match stateAttr now state name with
          | some (some v) => some v
          | some none => some []
          | none => some []
      else none)

/-- Structured-payload pass of `_build_runtime_template_block`: lowercased
`model_dump()` fields override matching placeholders. -/
def modelFieldsPass (placeholders : List Str) (payload : Option PayloadData)
    (ctx : FormatCtx) : FormatCtx :=
  match payload with
  | some p =>
    if p.isModel then
      p.fields.foldl (fun acc fv =>
        let key := fv.1.map Char.toLower
        if key ∈ placeholders then
          fun name => if name = key then
            some (match fv.2 with
              | some v => v
              | none => [])
            else acc name
        else acc) ctx
    else ctx
  | none => ctx

/-- Final `task`/`payload`/`input` pass of `_build_runtime_template_block`
(guarded by `key in placeholders and key not in context_dict`). -/
def serializedFallbackPass (placeholders : List Str) (payload_str : Option Str)
    (ctx : FormatCtx) : FormatCtx :=
  match payload_str with
  | none => ctx
  | some p =>
    [s2l "task", s2l "payload", s2l "input"].foldl (fun acc key =>
      if key ∈ placeholders ∧ acc key = none then
        fun name => if name = key then some p else acc name
      else acc) ctx

/-- The keyword dict passed to `profile.render`, assembled by the three
passes above. -/
def templateContext (now : Int) (state : ConversationState)
    (payload : Option PayloadData) (payload_str : Option Str)
    (placeholders : List Str) : Option FormatCtx :=
  match templateBaseCtx now state payload payload_str placeholders with
  | none => none
  | some ctx =>
    some (serializedFallbackPass placeholders payload_str
      (modelFieldsPass placeholders payload ctx))

/-- `ContextAssembler._build_runtime_template_block`; the outer `Option` is
exception propagation (a `ValueError` from the `current_iteration` lookup
in the `getattr` loop, or a format error from `str.format`), the inner one
is the policy-disabled `None` return. -/
def build_runtime_template_block (now : Int) (state : ConversationState)
    (profile : ResolvedProfile) (payload : Option PayloadData)
    (payload_str : Option Str) (policy : ContextPolicy) :
    Option (Option ContextBlock) :=
  match apply_block_policy "RUNTIME_TEMPLATE" policy with
  | none => some none
  | some block_policy =>
    let template := profile.runtime_template
    let placeholders := (findPlaceholders template).dedup
    match templateContext now state payload payload_str placeholders with
    | none => none
    | some ctx =>
      match pyFormat ctx template with
      | none => none
      | some rendered_text =>
        some (some { name := "RUNTIME_TEMPLATE", content := rendered_text,
                     priority := 100, max_chars := block_policy.max_chars })

/-- `ContextAssembler._render_message_history`. -/
def render_message_history (events : List ContextEvent) : Str :=
  let lines := events.filterMap (fun event =>
    if event.type = "USER_MESSAGE" ∨ event.type = "ASSISTANT_MESSAGE" then
      if event.content.isEmpty then none
      else
        let label := if event.type = "USER_MESSAGE" then s2l "USER" else s2l "ASSISTANT"
        some ('[' :: label ++ s2l "]\n" ++ event.content)
    else none)
  stripWs (joinSep (s2l "\n\n") lines)

/-- Tool name of a `TOOL_RESULT` event:
`meta.get("tool_name") or meta.get("name") or "tool"`. -/
def toolNameOf (event : ContextEvent) : Str :=
  match event.meta.lookup "tool_name" with
  | some v => if v.isEmpty then
      (match event.meta.lookup "name" with
       | some w => if w.isEmpty then s2l "tool" else w
       | none => s2l "tool")
    else v
  | none =>
    match event.meta.lookup "name" with
    | some w => if w.isEmpty then s2l "tool" else w
    | none => s2l "tool"

/-- The `latest` dict of `_render_tool_results`: a duplicate tool name is
popped and re-inserted at the end, so entries are ordered by each name's
most recent event. -/
def updateLatest (acc : List (Str × ContextEvent)) (name : Str)
    (e : ContextEvent) : List (Str × ContextEvent) :=
  (acc.filter (fun p => p.1 ≠ name)) ++ [(name, e)]

/-- Fold building the `latest` dict over the event list. -/
def latestToolEvents (events : List ContextEvent) : List (Str × ContextEvent) :=
  events.foldl (fun acc e =>
    if e.type = "TOOL_RESULT" then updateLatest acc (toolNameOf e) e else acc) []

/-- `ContextAssembler._render_tool_results`. -/
def render_tool_results (events : List ContextEvent) : Str :=
  let latest := latestToolEvents events
  let lines := latest.foldr (fun p acc =>
    if p.2.content.isEmpty then acc
    else
      let entry := [s2l "[TOOL " ++ p.1 ++ s2l "]\n" ++ p.2.content]
      let entry := entry ++
        (match p.2.meta.lookup "sources" with
         | some v => if v.isEmpty then
             (match p.2.meta.lookup "artifacts" with
              | some w => if w.isEmpty then [] else [s2l "<refs>\n" ++ w ++ s2l "\n</refs>"]
              | none => [])
           else [s2l "<refs>\n" ++ v ++ s2l "\n</refs>"]
         | none =>
           match p.2.meta.lookup "artifacts" with
           | some w => if w.isEmpty then [] else [s2l "<refs>\n" ++ w ++ s2l "\n</refs>"]
           | none => [])
      entry ++ acc) []
  stripWs (joinSep (s2l "\n\n") lines)

/-- `ContextAssembler._build_fallback_blocks`. -/
def build_fallback_blocks (state : ConversationState)
    (payload_str : Option Str) (policy : ContextPolicy) : List ContextBlock :=
  let blocks : List ContextBlock := []
  let blocks := blocks ++
    (match state.query, apply_block_policy "ORIGINAL_QUERY" policy with
     | some q, some bp =>
       if q.isEmpty then []
       else [{ name := "ORIGINAL_QUERY", content := s2l "[ORIGINAL QUERY]\n" ++ q,
               priority := 100, max_chars := bp.max_chars }]
     | _, _ => [])
  let skill_index :=
    if !(available_skills_text state).isEmpty then available_skills_text state
    else state.skills_index_text
  let blocks := blocks ++
    (match apply_block_policy "SKILL_INDEX" policy with
     | some bp =>
       if skill_index.isEmpty then []
       else [{ name := "SKILL_INDEX", content := s2l "[SKILL INDEX]\n" ++ skill_index,
               priority := 97, max_chars := bp.max_chars }]
     | none => [])
  let active_skill :=
    if !state.active_skill_text.isEmpty then state.active_skill_text
    else state.active_skill_markdown
  let blocks := blocks ++
    (match apply_block_policy "ACTIVE_SKILL" policy with
     | some bp =>
       if active_skill.isEmpty then []
       else [{ name := "ACTIVE_SKILL", content := s2l "[ACTIVE SKILL]\n" ++ active_skill,
               priority := 98, max_chars := bp.max_chars }]
     | none => [])
  let event_history := render_message_history state.events
  let blocks := blocks ++
    (match apply_block_policy "MESSAGE_HISTORY" policy with
     | some bp =>
       if event_history.isEmpty then []
       else [{ name := "MESSAGE_HISTORY", content := s2l "[MESSAGE HISTORY]\n" ++ event_history,
               priority := 95, max_chars := bp.max_chars }]
     | none => [])
  let history := render_iteration_history state.iterations false false (lastIndexPos state) 2
  let blocks := blocks ++
    (match apply_block_policy "PREVIOUS_ITERATIONS" policy with
     | some bp =>
       if history.isEmpty then []
       else [{ name := "PREVIOUS_ITERATIONS",
               content := s2l "[PREVIOUS ITERATIONS]\n" ++ history,
               priority := 90, max_chars := bp.max_chars }]
     | none => [])
  let tool_results := render_tool_results state.events
  let blocks := blocks ++
    (match apply_block_policy "TOOL_RESULTS" policy with
     | some bp =>
       if tool_results.isEmpty then []
       else [{ name := "TOOL_RESULTS", content := s2l "[TOOL RESULTS]\n" ++ tool_results,
               priority := 85, max_chars := bp.max_chars }]
     | none => [])
  let blocks := blocks ++
    (match payload_str, apply_block_policy "CURRENT_INPUT" policy with
     | some p, some bp =>
       if p.isEmpty then []
       else [{ name := "CURRENT_INPUT", content := s2l "[CURRENT INPUT]\n" ++ p,
               priority := 80, max_chars := bp.max_chars }]
     | _, _ => [])
  blocks

/-- `ContextAssembler.assemble`; `none` models a raised exception from
template formatting. -/
def assembleM (now : Int) (state : ConversationState) (profile : ResolvedProfile)
    (payload : Option PayloadData) (payload_str : Option Str) :
    Option (List ContextBlock) :=
  let policy := profile.context_policy
  if !profile.runtime_template.isEmpty then
    match build_runtime_template_block now state profile payload payload_str policy with
    | none => none
    | some (some block) => some [block]
    | some none => some (build_fallback_blocks state payload_str policy)
  else some (build_fallback_blocks state payload_str policy)

/-!  ## Instruction builder

From `echoagent/agent/prompting/instruction_builder.py`.  The resolved
budget chains `context_policy.total_budget` and
`profile.policies.context_budget` through Python `or`, so a budget of `0`
falls through to the fallback. -/

/-- Budget resolution in `InstructionBuilder.build`
(`context_budget or policies.context_budget`). -/
def resolveBudget (profile : ResolvedProfile) : Option Int :=
  match profile.context_policy.total_budget with
  | some v => if v = 0 then profile.policies_context_budget else some v
  | none => profile.policies_context_budget

/-- `InstructionBuilder.build`: assemble, trim, render; `none` models a
raised exception. -/
def buildModel (now : Int) (state : ConversationState) (profile : ResolvedProfile)
    (payload : Option PayloadData) (payload_str : Option Str) : Option Str :=
  match assembleM now state profile payload payload_str with
  | none => none
  | some blocks => some (render (trim blocks (resolveBudget profile)))

/-!  ## Derived notions used by the statements below -/

/-- Block names never touched by the global budget squeeze. -/
def untrimmableNames : List String :=
  ["ORIGINAL_QUERY", "RUNTIME_TEMPLATE", "ACTIVE_SKILL", "SKILL_INDEX"]

/-- Number of blocks carrying a given name. -/
def countName (n : String) (bs : List ContextBlock) : Nat :=
  (bs.filter (fun b => b.name = n)).length

/-- The way a string can shrink under budget tightening: no longer, and no
larger whitespace spans measured from the left, from the right, or from
both ends at once. -/
def StrShrink (c1 c2 : Str) : Prop :=
  c1.length ≤ c2.length ∧ leftSpan c1 ≤ leftSpan c2 ∧
  rightSpan c1 ≤ rightSpan c2 ∧ spanWs c1 ≤ spanWs c2

/-- Pointwise relation produced by tightening the budget: same block
metadata, with content no longer, no larger whitespace spans, and
visibility only lost, never gained. -/
def ShrunkBlock (b1 b2 : ContextBlock) : Prop :=
  b1.name = b2.name ∧ b1.priority = b2.priority ∧ b1.max_chars = b2.max_chars ∧
  StrShrink b1.content b2.content

/-- Content lists related by dropping some entries and shrinking the rest
(the shape produced on rendered contents by tightening the budget). -/
inductive RelSub : List Str → List Str → Prop
  | nil : RelSub [] []
  | cons {c1 c2 : Str} {l1 l2 : List Str} :
      StrShrink c1 c2 → RelSub l1 l2 → RelSub (c1 :: l1) (c2 :: l2)
  | skip {c2 : Str} {l1 l2 : List Str} : RelSub l1 l2 → RelSub l1 (c2 :: l2)

/-- Length of the stripped double-newline join, measured from the right
(`Σ len + 2·(k−1)` with the last entry's trailing whitespace removed). -/
def jlenR : List Str → Nat
  | [] => 0
  | [c] => rightSpan c
  | c :: rest => c.length + 2 + jlenR rest

/-- Length of the stripped double-newline join of a list of visible
strings. -/
def jlenS : List Str → Nat
  | [] => 0
  | [c] => spanWs c
  | c :: rest => leftSpan c + 2 + jlenR rest

/-- Claim-side description of the history compactor's choice: a candidate
renders raw when it is the included incomplete current iteration or when
fewer than `raw_keep_last` completed candidates follow it (it is among the
most-recently-completed ones); otherwise it renders in digest form (which
itself falls back to raw when no digest exists).  Empty blocks are
omitted. -/
def historySelection (raw_keep_last : Nat) :
    List (Nat × BaseIterationRecord × Bool) → List Str
  | [] => []
  | c :: rest =>
    let raw := (c.2.2 ∧ c.2.1.is_complete = false) ∨
      (c.2.1.is_complete = true ∧
        (rest.filter (fun d => d.2.1.is_complete)).length < raw_keep_last)
    let block := if raw then render_iteration_block c.2.1
      else render_iteration_digest_block c.2.1
    (if block.isEmpty then [] else [block]) ++ historySelection raw_keep_last rest

/-!  ## Basic lemmas about lengths and slicing -/

theorem totalLen_nil : totalLen [] = 0 := rfl

theorem totalLen_cons (b : ContextBlock) (bs : List ContextBlock) :
    totalLen (b :: bs) = b.content.length + totalLen bs := by
  simp [totalLen]

theorem totalLen_append (bs cs : List ContextBlock) :
    totalLen (bs ++ cs) = totalLen bs + totalLen cs := by
  simp [totalLen]

theorem totalLen_filter_le (p : ContextBlock → Bool) (bs : List ContextBlock) :
    totalLen (bs.filter p) ≤ totalLen bs := by
  induction bs with
  | nil => simp
  | cons b bs ih =>
    by_cases h : p b
    · simp [List.filter_cons, h, totalLen_cons]; omega
    · simp [List.filter_cons, h, totalLen_cons]; omega

theorem totalLen_drop_empty_le (bs : List ContextBlock) :
    totalLen (drop_empty bs) ≤ totalLen bs :=
  totalLen_filter_le _ bs

theorem header_body_decomp (c : Str) (h : '\n' ∈ c) :
    c = headerOf c ++ '\n' :: bodyOf c := by
  induction c with
  | nil => simp at h
  | cons a c ih =>
    by_cases ha : a = '\n'
    · subst ha
      simp [headerOf, bodyOf, notNl, List.takeWhile, List.dropWhile]
    · have hmem : '\n' ∈ c := by
        rcases List.mem_cons.mp h with h' | h'
        · exact absurd h'.symm ha
        · exact h'
      have hna : notNl a = true := by simp [notNl, ha]
      have := ih hmem
      simp only [headerOf, bodyOf, List.takeWhile_cons, List.dropWhile_cons, hna, if_pos]
      simp only [headerOf, bodyOf] at this
      exact congrArg (a :: ·) this

theorem header_body_length (c : Str) (h : '\n' ∈ c) :
    (headerOf c).length + 1 + (bodyOf c).length = c.length := by
  conv_rhs => rw [header_body_decomp c h]
  simp
  omega

theorem slice_eq_of_nonpos (c : Str) (limit : Int) (kt : Bool) (h1 : limit ≤ 0) :
    slice_content c limit kt = [] := by
  simp [slice_content, h1]

theorem slice_eq_of_fits (c : Str) (limit : Int) (kt : Bool)
    (h1 : ¬ limit ≤ 0) (h2 : (c.length : Int) ≤ limit) :
    slice_content c limit kt = c := by
  simp [slice_content, h1, h2]

theorem slice_eq_header_cut (c : Str) (limit : Int) (kt : Bool)
    (h1 : ¬ limit ≤ 0) (h2 : ¬ (c.length : Int) ≤ limit) (h3 : '\n' ∈ c)
    (h4 : limit ≤ ((headerOf c).length : Int) ∨ limit - (headerOf c).length - 1 ≤ 0) :
    slice_content c limit kt = (headerOf c).take limit.toNat := by
  by_cases h5 : ((headerOf c).length : Int) ≥ limit
  · simp [slice_content, h1, h2, h3, h5]
  · have h4' : limit - (headerOf c).length - 1 ≤ 0 := by
      rcases h4 with h4 | h4 <;> omega
    simp [slice_content, h1, h2, h3, h5, h4']

theorem slice_eq_header_body (c : Str) (limit : Int) (kt : Bool)
    (h1 : ¬ limit ≤ 0) (h2 : ¬ (c.length : Int) ≤ limit) (h3 : '\n' ∈ c)
    (h4 : ¬ limit - (headerOf c).length - 1 ≤ 0) :
    slice_content c limit kt =
      headerOf c ++ '\n' ::
        (if kt then (bodyOf c).drop ((bodyOf c).length - (limit - (headerOf c).length - 1).toNat)
         else (bodyOf c).take (limit - (headerOf c).length - 1).toNat) := by
  have h5 : ¬ ((headerOf c).length : Int) ≥ limit := by omega
  simp [slice_content, h1, h2, h3, h5, h4]

theorem slice_eq_no_nl (c : Str) (limit : Int) (kt : Bool)
    (h1 : ¬ limit ≤ 0) (h2 : ¬ (c.length : Int) ≤ limit) (h3 : '\n' ∉ c) :
    slice_content c limit kt =
      (if kt then c.drop (c.length - limit.toNat) else c.take limit.toNat) := by
  simp [slice_content, h1, h2, h3]

theorem slice_content_length_le (c : Str) (limit : Int) (kt : Bool) :
    ((slice_content c limit kt).length : Int) ≤ max limit 0 := by
  by_cases h1 : limit ≤ 0
  · rw [slice_eq_of_nonpos c limit kt h1]; simp
  · by_cases h2 : (c.length : Int) ≤ limit
    · rw [slice_eq_of_fits c limit kt h1 h2]; omega
    · by_cases h3 : '\n' ∈ c
      · by_cases h4 : limit ≤ ((headerOf c).length : Int) ∨ limit - (headerOf c).length - 1 ≤ 0
        · rw [slice_eq_header_cut c limit kt h1 h2 h3 h4]
          simp; omega
        · push_neg at h4
          rw [slice_eq_header_body c limit kt h1 h2 h3 (by omega)]
          have hlen := header_body_length c h3
          rcases kt with _ | _ <;> simp <;> omega
      · rw [slice_eq_no_nl c limit kt h1 h2 h3]
        rcases kt with _ | _ <;> simp <;> omega

theorem slice_content_length_le_orig (c : Str) (limit : Int) (kt : Bool) :
    (slice_content c limit kt).length ≤ c.length := by
  have htake : (List.takeWhile notNl c).length ≤ c.length :=
    (List.takeWhile_sublist notNl).length_le
  by_cases h1 : limit ≤ 0
  · rw [slice_eq_of_nonpos c limit kt h1]; simp
  · by_cases h2 : (c.length : Int) ≤ limit
    · rw [slice_eq_of_fits c limit kt h1 h2]
    · by_cases h3 : '\n' ∈ c
      · have hlen := header_body_length c h3
        by_cases h4 : limit ≤ ((headerOf c).length : Int) ∨ limit - (headerOf c).length - 1 ≤ 0
        · rw [slice_eq_header_cut c limit kt h1 h2 h3 h4]
          simp only [List.length_take, headerOf] at *
          omega
        · push_neg at h4
          rw [slice_eq_header_body c limit kt h1 h2 h3 (by omega)]
          rcases kt with _ | _ <;> simp <;> omega
      · rw [slice_eq_no_nl c limit kt h1 h2 h3]
        rcases kt with _ | _ <;> simp <;> omega

/-!  ## Structure of one trim pass -/

theorem trim_block_to_fit_meta (b : ContextBlock) (t m : Int) :
    ((trim_block_to_fit b t m).2).name = b.name ∧
    ((trim_block_to_fit b t m).2).priority = b.priority ∧
    ((trim_block_to_fit b t m).2).max_chars = b.max_chars := by
  simp only [trim_block_to_fit]
  split_ifs <;> simp

theorem trim_block_to_fit_total (b : ContextBlock) (t m : Int) :
    (trim_block_to_fit b t m).1 =
      t - b.content.length + ((trim_block_to_fit b t m).2).content.length := by
  simp only [trim_block_to_fit]
  split_ifs <;> simp <;> omega

theorem trim_first_total (n : String) (m : Int) :
    ∀ (bs : List ContextBlock) (t : Int),
      (trim_first n m t bs).1 =
        t - (totalLen bs : Int) + totalLen ((trim_first n m t bs).2) := by
  intro bs
  induction bs with
  | nil => intro t; simp [trim_first, totalLen]
  | cons b rest ih =>
    intro t
    unfold trim_first
    by_cases h : b.name = n
    · simp only [h, if_pos rfl]
      have := trim_block_to_fit_total b t m
      simp [totalLen_cons]
      push_cast
      omega
    · simp only [if_neg h]
      have := ih t
      simp [totalLen_cons]
      push_cast
      omega

theorem trim_first_names (n : String) (m : Int) :
    ∀ (bs : List ContextBlock) (t : Int),
      ((trim_first n m t bs).2).map (fun b => b.name) = bs.map (fun b => b.name) := by
  intro bs
  induction bs with
  | nil => intro t; simp [trim_first]
  | cons b rest ih =>
    intro t
    unfold trim_first
    by_cases h : b.name = n
    · simp only [h, if_pos rfl]
      simp [(trim_block_to_fit_meta b t m).1, h]
    · simp only [if_neg h]
      simp [ih t]

theorem trim_names_of_le (m : Int) (ns : List String) (t : Int)
    (bs : List ContextBlock) (h : t ≤ m) : trim_names m ns t bs = bs := by
  cases ns with
  | nil => rfl
  | cons n ns => simp [trim_names, h]

theorem trim_names_names (m : Int) :
    ∀ (ns : List String) (t : Int) (bs : List ContextBlock),
      (trim_names m ns t bs).map (fun b => b.name) = bs.map (fun b => b.name) := by
  intro ns
  induction ns with
  | nil => intro t bs; rfl
  | cons n ns ih =>
    intro t bs
    unfold trim_names
    by_cases h : t ≤ m
    · simp [h]
    · simp only [if_neg h]
      rw [ih, trim_first_names]

theorem countName_cons (n : String) (b : ContextBlock) (bs : List ContextBlock) :
    countName n (b :: bs) = (if b.name = n then 1 else 0) + countName n bs := by
  by_cases h : b.name = n <;> simp [countName, List.filter_cons, h] <;> omega

theorem countName_append (n : String) (bs cs : List ContextBlock) :
    countName n (bs ++ cs) = countName n bs + countName n cs := by
  simp [countName]

theorem countName_eq_of_names (n : String) (bs cs : List ContextBlock)
    (h : bs.map (fun b => b.name) = cs.map (fun b => b.name)) :
    countName n bs = countName n cs := by
  induction bs generalizing cs with
  | nil => cases cs <;> simp_all [countName]
  | cons b bs ih =>
    cases cs with
    | nil => simp at h
    | cons c cs =>
      simp only [List.map_cons, List.cons.injEq] at h
      rw [countName_cons, countName_cons, h.1, ih cs h.2]

theorem trim_first_not_found (n : String) (m : Int) :
    ∀ (bs : List ContextBlock) (t : Int), countName n bs = 0 →
      trim_first n m t bs = (t, bs) := by
  intro bs
  induction bs with
  | nil => intro t _; rfl
  | cons b rest ih =>
    intro t h
    rw [countName_cons] at h
    by_cases hb : b.name = n
    · simp [hb] at h
    · unfold trim_first
      simp only [if_neg hb]
      rw [ih t (by omega)]

theorem trim_first_cases (n : String) (m : Int) :
    ∀ (bs : List ContextBlock) (t : Int), countName n bs ≤ 1 → m < t →
    (countName n bs = 0 ∧ trim_first n m t bs = (t, bs)) ∨
    ((trim_first n m t bs).1 ≤ m) ∨
    (∃ pre b post, bs = pre ++ b :: post ∧ b.name = n ∧
      countName n pre = 0 ∧ countName n post = 0 ∧
      trim_first n m t bs =
        (t - b.content.length, pre ++ ({ b with content := [] } : ContextBlock) :: post)) := by
  intro bs
  induction bs with
  | nil => intro t _ _; left; exact ⟨rfl, rfl⟩
  | cons b0 rest ih =>
    intro t hc hm
    rw [countName_cons] at hc
    by_cases hb : b0.name = n
    · -- the head is the first matching block
      have hrest : countName n rest = 0 := by
        simp [hb] at hc
        omega
      have heq0 : trim_first n m t (b0 :: rest) =
          ((trim_block_to_fit b0 t m).1, (trim_block_to_fit b0 t m).2 :: rest) := by
        simp only [trim_first]
        rw [if_pos hb]
      have hex : ¬ (t - m ≤ 0) := by omega
      by_cases hall : (b0.content.length : Int) - (t - m) ≤ 0
      · right; right
        refine ⟨[], b0, rest, by simp, hb, by simp [countName], hrest, ?_⟩
        rw [heq0]
        simp only [trim_block_to_fit]
        rw [if_neg hex, if_pos hall]
        simp
      · right; left
        rw [heq0]
        simp only [trim_block_to_fit]
        rw [if_neg hex, if_neg hall]
        have hs := slice_content_length_le b0.content ((b0.content.length : Int) - (t - m))
          (decide (b0.name ∈ trimmableNames))
        have h0 : (0 : Int) ≤ (b0.content.length : Int) - (t - m) := by omega
        rw [max_eq_left h0] at hs
        simp only []
        omega
    · have heq0 : trim_first n m t (b0 :: rest) =
          ((trim_first n m t rest).1, b0 :: (trim_first n m t rest).2) := by
        simp only [trim_first]
        rw [if_neg hb]
      rcases ih t (by omega) hm with ⟨h0, heq⟩ | hle | ⟨pre, b, post, hsplit, hname, hpre, hpost, heq⟩
      · left
        constructor
        · rw [countName_cons]
          simp [hb, h0]
        · rw [heq0, heq]
      · right; left
        rw [heq0]
        simpa using hle
      · right; right
        refine ⟨b0 :: pre, b, post, by simp [hsplit], hname, ?_, hpost, ?_⟩
        · rw [countName_cons]
          simp [hb, hpre]
        · rw [heq0, heq]
          simp

theorem countName_pos_of_mem {n : String} {b : ContextBlock} {bs : List ContextBlock}
    (hmem : b ∈ bs) (hname : b.name = n) : 0 < countName n bs := by
  have hmemf : b ∈ bs.filter (fun c => decide (c.name = n)) :=
    List.mem_filter.mpr ⟨hmem, by simp [hname]⟩
  have hlen := List.length_pos.mpr (List.ne_nil_of_mem hmemf)
  simpa [countName] using hlen

theorem filter_notin_cons_eq (n : String) (ns : List String) (l : List ContextBlock)
    (h : countName n l = 0) :
    l.filter (fun b => decide (b.name ∉ n :: ns)) = l.filter (fun b => decide (b.name ∉ ns)) := by
  apply List.filter_congr
  intro b hbmem
  have hbn : b.name ≠ n := by
    intro hEq
    have := countName_pos_of_mem hbmem hEq
    omega
  simp [hbn]

theorem trim_names_total_le (m : Int) :
    ∀ (ns : List String) (t : Int) (bs : List ContextBlock),
      t = (totalLen bs : Int) →
      (∀ n ∈ ns, countName n bs ≤ 1) → ns.Nodup →
      ((totalLen (bs.filter (fun b => decide (b.name ∉ ns))) : Int) ≤ m) →
      ((totalLen (trim_names m ns t bs) : Int) ≤ m) := by
  intro ns
  induction ns with
  | nil =>
    intro t bs ht _ _ hf
    have hself : bs.filter (fun b => decide (b.name ∉ ([] : List String))) = bs := by
      apply List.filter_eq_self.mpr
      intro b _
      simp
    rw [hself] at hf
    simpa [trim_names] using hf
  | cons n ns ih =>
    intro t bs ht hcount hnd hf
    by_cases hm : t ≤ m
    · rw [trim_names_of_le m (n::ns) t bs hm]
      omega
    · have heq : trim_names m (n::ns) t bs =
          trim_names m ns (trim_first n m t bs).1 (trim_first n m t bs).2 := by
        simp only [trim_names]
        rw [if_neg hm]
      rw [heq]
      have hcn : countName n bs ≤ 1 := hcount n (by simp)
      rcases trim_first_cases n m bs t hcn (by omega) with ⟨h0, heq1⟩ | hle |
        ⟨pre, b, post, hsplit, hname, hpre, hpost, heq1⟩
      · rw [heq1]
        apply ih t bs ht (fun n' hn' => hcount n' (by simp [hn'])) hnd.of_cons
        rw [← filter_notin_cons_eq n ns bs h0]
        exact hf
      · rw [trim_names_of_le m ns _ _ hle]
        have htot := trim_first_total n m bs t
        omega
      · rw [heq1]
        have hnotin : n ∉ ns := (List.nodup_cons.mp hnd).1
        have hbs' : totalLen (pre ++ ({ b with content := [] } : ContextBlock) :: post) =
            totalLen pre + totalLen post := by
          rw [totalLen_append, totalLen_cons]
          simp
        have hbs : totalLen bs = totalLen pre + b.content.length + totalLen post := by
          rw [hsplit, totalLen_append, totalLen_cons]
          omega
        apply ih
        · rw [hbs']
          rw [hbs] at ht
          push_cast at ht ⊢
          omega
        · intro n' hn'
          have : (pre ++ ({ b with content := [] } : ContextBlock) :: post).map (fun c => c.name) =
              bs.map (fun c => c.name) := by
            rw [hsplit]
            simp
          rw [countName_eq_of_names n' _ bs this]
          exact hcount n' (by simp [hn'])
        · exact hnd.of_cons
        · have hsplitf : (pre ++ ({ b with content := [] } : ContextBlock) :: post).filter
              (fun c => decide (c.name ∉ ns)) =
              pre.filter (fun c => decide (c.name ∉ ns)) ++
                ({ b with content := [] } : ContextBlock) ::
                post.filter (fun c => decide (c.name ∉ ns)) := by
            rw [List.filter_append, List.filter_cons]
            have : (({ b with content := [] } : ContextBlock).name ∉ ns) := by
              simpa [hname] using hnotin
            simp [this]
          rw [hsplitf, totalLen_append, totalLen_cons]
          simp only [List.length_nil]
          have hforig : (bs.filter (fun c => decide (c.name ∉ n :: ns))) =
              pre.filter (fun c => decide (c.name ∉ ns)) ++
                post.filter (fun c => decide (c.name ∉ ns)) := by
            rw [hsplit, List.filter_append, List.filter_cons]
            have hbn : ¬ (b.name ∉ n :: ns) := by simp [hname]
            simp only [hbn, decide_eq_false hbn]
            rw [filter_notin_cons_eq n ns pre hpre, filter_notin_cons_eq n ns post hpost]
            simp [hbn]
          rw [hforig, totalLen_append] at hf
          push_cast at hf ⊢
          omega

theorem apply_block_limit_meta (b : ContextBlock) :
    (apply_block_limit b).name = b.name ∧
    (apply_block_limit b).priority = b.priority ∧
    (apply_block_limit b).max_chars = b.max_chars := by
  unfold apply_block_limit
  split <;> try simp
  split <;> simp

theorem apply_block_limit_names (bs : List ContextBlock) :
    (bs.map apply_block_limit).map (fun b => b.name) = bs.map (fun b => b.name) := by
  induction bs with
  | nil => rfl
  | cons b bs ih => simp [ih, (apply_block_limit_meta b).1]

/-- Positive budgets always run the capping pass, the name loop and the
empty-block cleanup (the early return coincides with `trim_names` halting
immediately). -/
theorem trim_pos_eq (bs : List ContextBlock) (m : Int) (h : ¬ m ≤ 0) :
    trim bs (some m) =
      drop_empty (trim_names m trimmableNames
        (totalLen (bs.map apply_block_limit)) (bs.map apply_block_limit)) := by
  simp only [trim, if_neg h]
  by_cases ht : ((totalLen (bs.map apply_block_limit)) : Int) ≤ m
  · rw [if_pos ht, trim_names_of_le _ _ _ _ ht]
  · rw [if_neg ht]

/-- C1 (amended): with a finite budget, `trim` returns the empty list when
the budget is not positive; and when the budget is positive, the four
trimmable names each occur at most once, and the blocks that the global
squeeze never touches (all blocks whose name is not a trimmable one), after
their own caps, fit in the budget, then the returned blocks' total content
length fits in the budget. -/
theorem budgeter_postcondition (bs : List ContextBlock) (m : Int) :
    (m ≤ 0 → trim bs (some m) = []) ∧
    (0 < m →
      (∀ n ∈ trimmableNames, countName n bs ≤ 1) →
      ((totalLen ((bs.map apply_block_limit).filter
          (fun b => decide (b.name ∉ trimmableNames))) : Int) ≤ m) →
      ((totalLen (trim bs (some m)) : Int) ≤ m)) := by
  constructor
  · intro h
    simp [trim, h]
  · intro hm hcount hf
    rw [trim_pos_eq bs m (by omega)]
    have hcount' : ∀ n ∈ trimmableNames, countName n (bs.map apply_block_limit) ≤ 1 := by
      intro n hn
      rw [countName_eq_of_names n _ bs (apply_block_limit_names bs)]
      exact hcount n hn
    have hnd : trimmableNames.Nodup := by decide
    have hle := trim_names_total_le m trimmableNames
      (totalLen (bs.map apply_block_limit)) (bs.map apply_block_limit)
      rfl hcount' hnd hf
    have hd := totalLen_drop_empty_le
      (trim_names m trimmableNames (totalLen (bs.map apply_block_limit)) (bs.map apply_block_limit))
    omega

/-- C1 (witness): a concrete positive-budget instance of the amended
postcondition. -/
theorem budgeter_postcondition_witness :
    ((totalLen (trim [⟨"ORIGINAL_QUERY", s2l "aa", 100, none⟩,
        ⟨"CURRENT_INPUT", s2l "bbb", 80, none⟩] (some 3)) : Int) ≤ 3) :=
  (budgeter_postcondition
    [⟨"ORIGINAL_QUERY", s2l "aa", 100, none⟩, ⟨"CURRENT_INPUT", s2l "bbb", 80, none⟩] 3).2
    (by decide) (by decide) (by decide)

/-- C1 (counterexample): two blocks both named `CURRENT_INPUT` defeat the
claimed postcondition: the untrimmable names contribute nothing, the budget
is positive, yet the trimmed output still exceeds the budget because only
the first block of a given name is ever squeezed. -/
theorem budgeter_postcondition_counterexample :
    (totalLen ((([⟨"CURRENT_INPUT", s2l "aaaa", 0, none⟩,
        ⟨"CURRENT_INPUT", s2l "bbbb", 0, none⟩] : List ContextBlock).map apply_block_limit).filter
          (fun b => decide (b.name ∈ untrimmableNames))) = 0) ∧
    3 < (totalLen (trim [⟨"CURRENT_INPUT", s2l "aaaa", 0, none⟩,
        ⟨"CURRENT_INPUT", s2l "bbbb", 0, none⟩] (some 3)) : Int) := by
  constructor
  · decide
  · decide

theorem trim_first_mem_of_name_ne (n : String) (m : Int) :
    ∀ (bs : List ContextBlock) (t : Int) (b : ContextBlock),
      b ∈ bs → b.name ≠ n → b ∈ (trim_first n m t bs).2 := by
  intro bs
  induction bs with
  | nil => intro t b h; simp at h
  | cons b0 rest ih =>
    intro t b hmem hne
    by_cases hb : b0.name = n
    · have heq0 : trim_first n m t (b0 :: rest) =
          ((trim_block_to_fit b0 t m).1, (trim_block_to_fit b0 t m).2 :: rest) := by
        simp only [trim_first]
        rw [if_pos hb]
      rw [heq0]
      rcases List.mem_cons.mp hmem with hEq | hmem'
      · exact absurd (hEq ▸ hb) hne
      · exact List.mem_cons_of_mem _ hmem'
    · have heq0 : trim_first n m t (b0 :: rest) =
          ((trim_first n m t rest).1, b0 :: (trim_first n m t rest).2) := by
        simp only [trim_first]
        rw [if_neg hb]
      rw [heq0]
      rcases List.mem_cons.mp hmem with hEq | hmem'
      · exact hEq ▸ List.mem_cons_self _ _
      · exact List.mem_cons_of_mem _ (ih t b hmem' hne)

theorem trim_names_mem_of_name_notin (m : Int) :
    ∀ (ns : List String) (t : Int) (bs : List ContextBlock) (b : ContextBlock),
      b ∈ bs → b.name ∉ ns → b ∈ trim_names m ns t bs := by
  intro ns
  induction ns with
  | nil => intro t bs b h _; simpa [trim_names] using h
  | cons n ns ih =>
    intro t bs b hmem hnotin
    by_cases hm : t ≤ m
    · rw [trim_names_of_le m (n::ns) t bs hm]
      exact hmem
    · have heq : trim_names m (n::ns) t bs =
          trim_names m ns (trim_first n m t bs).1 (trim_first n m t bs).2 := by
        simp only [trim_names]
        rw [if_neg hm]
      rw [heq]
      have hne : b.name ≠ n := fun h => hnotin (by simp [h])
      have hnotin' : b.name ∉ ns := fun h => hnotin (by simp [h])
      exact ih _ _ b (trim_first_mem_of_name_ne n m bs t b hmem hne) hnotin'

theorem mem_drop_empty {b : ContextBlock} {bs : List ContextBlock} :
    b ∈ drop_empty bs ↔ b ∈ bs ∧ (!b.content.isEmpty && hasVisible b.content) = true := by
  simp [drop_empty, List.mem_filter]

theorem hasVisible_not_empty {s : Str} (h : hasVisible s = true) : s.isEmpty = false := by
  cases s with
  | nil => simp [hasVisible] at h
  | cons a s => simp

/-- Untrimmable blocks survive a positive-budget trim with exactly their own
per-block cap applied, whenever the capped content is not all whitespace. -/
theorem mem_trim_untrimmable {bs : List ContextBlock} {m : Int} {b : ContextBlock}
    (hm : 0 < m) (hmem : b ∈ bs) (hname : b.name ∉ trimmableNames)
    (hvis : hasVisible (apply_block_limit b).content = true) :
    apply_block_limit b ∈ trim bs (some m) := by
  rw [trim_pos_eq bs m (by omega)]
  rw [mem_drop_empty]
  constructor
  · apply trim_names_mem_of_name_notin
    · exact List.mem_map_of_mem apply_block_limit hmem
    · rw [(apply_block_limit_meta b).1]
      exact hname
  · rw [hvis, hasVisible_not_empty hvis]
    rfl

/-- C2 (amended): for every positive finite budget, a block named
`ORIGINAL_QUERY`/`RUNTIME_TEMPLATE`/`ACTIVE_SKILL`/`SKILL_INDEX` is returned
by `trim` with exactly its own `maxChars` cap applied whenever the capped
content contains a non-whitespace character (a budget ≤ 0 empties the whole
list, and whitespace-only capped content is dropped by the final cleanup);
in particular, on `[ORIGINAL_QUERY: 20][PREVIOUS_ITERATIONS: 40]
[CURRENT_INPUT: 20]` without per-block caps and budget = total − 10,
`PREVIOUS_ITERATIONS` loses exactly its last 10 characters and the other two
blocks are returned unchanged. -/
theorem untrimmable_frame_invariant :
    (∀ (bs : List ContextBlock) (m : Int) (b : ContextBlock),
      0 < m → b ∈ bs → b.name ∈ untrimmableNames →
      hasVisible (apply_block_limit b).content = true →
      apply_block_limit b ∈ trim bs (some m)) ∧
    trim [⟨"ORIGINAL_QUERY", List.replicate 20 'q', 100, none⟩,
          ⟨"PREVIOUS_ITERATIONS", List.replicate 40 'h', 90, none⟩,
          ⟨"CURRENT_INPUT", List.replicate 20 'i', 80, none⟩] (some 70) =
      [⟨"ORIGINAL_QUERY", List.replicate 20 'q', 100, none⟩,
       ⟨"PREVIOUS_ITERATIONS", List.replicate 30 'h', 90, none⟩,
       ⟨"CURRENT_INPUT", List.replicate 20 'i', 80, none⟩] := by
  constructor
  · intro bs m b hm hmem hname hvis
    apply mem_trim_untrimmable hm hmem _ hvis
    simp only [untrimmableNames, List.mem_cons, List.not_mem_nil, or_false] at hname
    rcases hname with h | h | h | h <;> rw [h] <;> decide
  · decide

/-- C2 (witness): the general clause applied at a concrete input. -/
theorem untrimmable_frame_invariant_witness :
    apply_block_limit ⟨"ORIGINAL_QUERY", s2l "q", 100, none⟩ ∈
      trim [⟨"ORIGINAL_QUERY", s2l "q", 100, none⟩,
            ⟨"CURRENT_INPUT", s2l "xyz", 80, none⟩] (some 2) :=
  untrimmable_frame_invariant.1 _ 2 _ (by decide) (by decide) (by decide) (by decide)

/-- C2 (counterexample): as literally stated the frame claim fails for
non-positive finite budgets (every block is removed) and for untrimmable
blocks whose content is all whitespace (removed by the cleanup although no
cap applies). -/
theorem untrimmable_frame_counterexample :
    trim [⟨"ORIGINAL_QUERY", s2l "a", 100, none⟩] (some 0) = [] ∧
    trim [⟨"ORIGINAL_QUERY", s2l "  ", 100, none⟩] (some 5) = [] := by
  constructor
  · decide
  · decide

theorem trim_first_first_match (n : String) (m : Int) :
    ∀ (pre : List ContextBlock) (b : ContextBlock) (post : List ContextBlock) (t : Int),
      countName n pre = 0 → b.name = n →
      trim_first n m t (pre ++ b :: post) =
        ((trim_block_to_fit b t m).1, pre ++ (trim_block_to_fit b t m).2 :: post) := by
  intro pre
  induction pre with
  | nil =>
    intro b post t _ hb
    simp only [List.nil_append, trim_first]
    rw [if_pos hb]
  | cons p0 pre ih =>
    intro b post t hc hb
    rw [countName_cons] at hc
    have hp0 : p0.name ≠ n := by
      intro h
      simp [h] at hc
    have heq0 : trim_first n m t (p0 :: (pre ++ b :: post)) =
        ((trim_first n m t (pre ++ b :: post)).1,
          p0 :: (trim_first n m t (pre ++ b :: post)).2) := by
      simp only [trim_first]
      rw [if_neg hp0]
    simp only [List.cons_append]
    rw [heq0, ih b post t (by omega) hb]

theorem trim_first_mem_structure (n : String) (m : Int) :
    ∀ (bs : List ContextBlock) (t : Int) (b' : ContextBlock),
      b' ∈ (trim_first n m t bs).2 → b' ∈ bs ∨ b'.name = n := by
  intro bs
  induction bs with
  | nil => intro t b' h; simp [trim_first] at h
  | cons b0 rest ih =>
    intro t b' hmem
    by_cases hb : b0.name = n
    · have heq0 : trim_first n m t (b0 :: rest) =
          ((trim_block_to_fit b0 t m).1, (trim_block_to_fit b0 t m).2 :: rest) := by
        simp only [trim_first]
        rw [if_pos hb]
      rw [heq0] at hmem
      rcases List.mem_cons.mp hmem with hEq | hmem'
      · right
        rw [hEq, (trim_block_to_fit_meta b0 t m).1, hb]
      · left
        exact List.mem_cons_of_mem _ hmem'
    · have heq0 : trim_first n m t (b0 :: rest) =
          ((trim_first n m t rest).1, b0 :: (trim_first n m t rest).2) := by
        simp only [trim_first]
        rw [if_neg hb]
      rw [heq0] at hmem
      rcases List.mem_cons.mp hmem with hEq | hmem'
      · left
        exact hEq ▸ List.mem_cons_self _ _
      · rcases ih t b' hmem' with h | h
        · exact Or.inl (List.mem_cons_of_mem _ h)
        · exact Or.inr h

theorem trim_names_mem_structure (m : Int) :
    ∀ (ns : List String) (t : Int) (bs : List ContextBlock) (b' : ContextBlock),
      b' ∈ trim_names m ns t bs → b' ∈ bs ∨ b'.name ∈ ns := by
  intro ns
  induction ns with
  | nil => intro t bs b' h; simpa [trim_names] using h
  | cons n ns ih =>
    intro t bs b' hmem
    by_cases hm : t ≤ m
    · rw [trim_names_of_le m (n::ns) t bs hm] at hmem
      exact Or.inl hmem
    · have heq : trim_names m (n::ns) t bs =
          trim_names m ns (trim_first n m t bs).1 (trim_first n m t bs).2 := by
        simp only [trim_names]
        rw [if_neg hm]
      rw [heq] at hmem
      rcases ih _ _ b' hmem with h | h
      · rcases trim_first_mem_structure n m bs t b' h with h' | h'
        · exact Or.inl h'
        · exact Or.inr (by simp [h'])
      · exact Or.inr (by simp [h])

/-- C10: for each of the four trimmable names, when the squeeze loop
reaches that name with a running total exceeding the budget and the excess
is at least the named block's whole content length, the budgeter empties
the block — which the final cleanup then removes from the returned list
entirely — and continues the squeeze with the remaining names in the fixed
priority order at the reduced running total. -/
theorem trimmable_block_vanishes (bs : List ContextBlock) (m : Int) (n : String)
    (rest : List String) (t : Int) (cs pre post : List ContextBlock) (b : ContextBlock)
    (hsuf : (n :: rest).IsSuffix trimmableNames)
    (hreach : trim bs (some m) = drop_empty (trim_names m (n :: rest) t cs))
    (hdecomp : cs = pre ++ b :: post)
    (hname : b.name = n)
    (hpre : countName n pre = 0)
    (hpost : countName n post = 0)
    (hT : ¬ t ≤ m)
    (hz : (b.content.length : Int) ≤ t - m) :
    trim bs (some m) =
      drop_empty (trim_names m rest (t - b.content.length)
        (pre ++ ({ b with content := [] } : ContextBlock) :: post)) ∧
    ∀ b' ∈ trim bs (some m), b'.name ≠ n := by
  have hnrest : n ∉ rest := by
    have hnd : trimmableNames.Nodup := by decide
    have hnd2 : (n :: rest).Nodup := List.Sublist.nodup hsuf.sublist hnd
    exact (List.nodup_cons.mp hnd2).1
  have hfirstEq : trim bs (some m) =
      drop_empty (trim_names m rest (t - b.content.length)
        (pre ++ ({ b with content := [] } : ContextBlock) :: post)) := by
    rw [hreach]
    have hstep : trim_names m (n :: rest) t cs =
        trim_names m rest (trim_first n m t cs).1 (trim_first n m t cs).2 := by
      simp only [trim_names]
      rw [if_neg hT]
    rw [hstep, hdecomp, trim_first_first_match n m pre b post t hpre hname]
    have hbt : trim_block_to_fit b t m =
        (t - b.content.length, ({ b with content := [] } : ContextBlock)) := by
      simp only [trim_block_to_fit]
      rw [if_neg (by omega), if_pos (by omega)]
    rw [hbt]
  refine ⟨hfirstEq, ?_⟩
  intro b' hmem hname'
  rw [hfirstEq, mem_drop_empty] at hmem
  rcases hmem with ⟨hmem, hvis⟩
  rcases trim_names_mem_structure m _ _ _ b' hmem with hin | hin
  · rcases List.mem_append.mp hin with hin | hin
    · have := countName_pos_of_mem hin hname'
      omega
    · rcases List.mem_cons.mp hin with hEq | hin
      · rw [hEq] at hvis
        simp [hasVisible] at hvis
      · have := countName_pos_of_mem hin hname'
        omega
  · rw [hname'] at hin
    exact hnrest hin

/-- C10 (witness): concrete instances where each of the four trimmable
blocks disappears, one per name: the named block is emptied, the loop
continues with the remaining names at the reduced total, and the returned
list no longer carries the name. -/
theorem trimmable_block_vanishes_witness :
    (trim [⟨"PREVIOUS_ITERATIONS", s2l "aaaa", 90, none⟩,
        ⟨"CURRENT_INPUT", s2l "bbb", 80, none⟩] (some 3) =
      drop_empty (trim_names 3 ["MESSAGE_HISTORY", "TOOL_RESULTS", "CURRENT_INPUT"] 3
        [⟨"PREVIOUS_ITERATIONS", [], 90, none⟩, ⟨"CURRENT_INPUT", s2l "bbb", 80, none⟩]) ∧
      (⟨"CURRENT_INPUT", s2l "bbb", 80, none⟩ : ContextBlock).name ≠ "PREVIOUS_ITERATIONS") ∧
    (trim [⟨"MESSAGE_HISTORY", s2l "cccc", 95, none⟩,
        ⟨"CURRENT_INPUT", s2l "bbb", 80, none⟩] (some 3) =
      drop_empty (trim_names 3 ["TOOL_RESULTS", "CURRENT_INPUT"] 3
        [⟨"MESSAGE_HISTORY", [], 95, none⟩, ⟨"CURRENT_INPUT", s2l "bbb", 80, none⟩]) ∧
      (⟨"CURRENT_INPUT", s2l "bbb", 80, none⟩ : ContextBlock).name ≠ "MESSAGE_HISTORY") ∧
    (trim [⟨"TOOL_RESULTS", s2l "dddd", 85, none⟩,
        ⟨"CURRENT_INPUT", s2l "eee", 80, none⟩] (some 3) =
      drop_empty (trim_names 3 ["CURRENT_INPUT"] 3
        [⟨"TOOL_RESULTS", [], 85, none⟩, ⟨"CURRENT_INPUT", s2l "eee", 80, none⟩]) ∧
      (⟨"CURRENT_INPUT", s2l "eee", 80, none⟩ : ContextBlock).name ≠ "TOOL_RESULTS") ∧
    (trim [⟨"ORIGINAL_QUERY", s2l "qqqq", 100, none⟩,
        ⟨"CURRENT_INPUT", s2l "cccc", 80, none⟩] (some 3) =
      drop_empty (trim_names 3 [] 4
        [⟨"ORIGINAL_QUERY", s2l "qqqq", 100, none⟩, ⟨"CURRENT_INPUT", [], 80, none⟩]) ∧
      (⟨"ORIGINAL_QUERY", s2l "qqqq", 100, none⟩ : ContextBlock).name ≠ "CURRENT_INPUT") :=
  ⟨⟨(trimmable_block_vanishes
      [⟨"PREVIOUS_ITERATIONS", s2l "aaaa", 90, none⟩, ⟨"CURRENT_INPUT", s2l "bbb", 80, none⟩]
      3 "PREVIOUS_ITERATIONS" ["MESSAGE_HISTORY", "TOOL_RESULTS", "CURRENT_INPUT"] 7
      [⟨"PREVIOUS_ITERATIONS", s2l "aaaa", 90, none⟩, ⟨"CURRENT_INPUT", s2l "bbb", 80, none⟩]
      [] [⟨"CURRENT_INPUT", s2l "bbb", 80, none⟩] ⟨"PREVIOUS_ITERATIONS", s2l "aaaa", 90, none⟩
      (by decide) (by decide) (by decide) (by decide) (by decide) (by decide)
      (by decide) (by decide)).1,
    (trimmable_block_vanishes
      [⟨"PREVIOUS_ITERATIONS", s2l "aaaa", 90, none⟩, ⟨"CURRENT_INPUT", s2l "bbb", 80, none⟩]
      3 "PREVIOUS_ITERATIONS" ["MESSAGE_HISTORY", "TOOL_RESULTS", "CURRENT_INPUT"] 7
      [⟨"PREVIOUS_ITERATIONS", s2l "aaaa", 90, none⟩, ⟨"CURRENT_INPUT", s2l "bbb", 80, none⟩]
      [] [⟨"CURRENT_INPUT", s2l "bbb", 80, none⟩] ⟨"PREVIOUS_ITERATIONS", s2l "aaaa", 90, none⟩
      (by decide) (by decide) (by decide) (by decide) (by decide) (by decide)
      (by decide) (by decide)).2
      ⟨"CURRENT_INPUT", s2l "bbb", 80, none⟩ (by decide)⟩,
   ⟨(trimmable_block_vanishes
      [⟨"MESSAGE_HISTORY", s2l "cccc", 95, none⟩, ⟨"CURRENT_INPUT", s2l "bbb", 80, none⟩]
      3 "MESSAGE_HISTORY" ["TOOL_RESULTS", "CURRENT_INPUT"] 7
      [⟨"MESSAGE_HISTORY", s2l "cccc", 95, none⟩, ⟨"CURRENT_INPUT", s2l "bbb", 80, none⟩]
      [] [⟨"CURRENT_INPUT", s2l "bbb", 80, none⟩] ⟨"MESSAGE_HISTORY", s2l "cccc", 95, none⟩
      (by decide) (by decide) (by decide) (by decide) (by decide) (by decide)
      (by decide) (by decide)).1,
    (trimmable_block_vanishes
      [⟨"MESSAGE_HISTORY", s2l "cccc", 95, none⟩, ⟨"CURRENT_INPUT", s2l "bbb", 80, none⟩]
      3 "MESSAGE_HISTORY" ["TOOL_RESULTS", "CURRENT_INPUT"] 7
      [⟨"MESSAGE_HISTORY", s2l "cccc", 95, none⟩, ⟨"CURRENT_INPUT", s2l "bbb", 80, none⟩]
      [] [⟨"CURRENT_INPUT", s2l "bbb", 80, none⟩] ⟨"MESSAGE_HISTORY", s2l "cccc", 95, none⟩
      (by decide) (by decide) (by decide) (by decide) (by decide) (by decide)
      (by decide) (by decide)).2
      ⟨"CURRENT_INPUT", s2l "bbb", 80, none⟩ (by decide)⟩,
   ⟨(trimmable_block_vanishes
      [⟨"TOOL_RESULTS", s2l "dddd", 85, none⟩, ⟨"CURRENT_INPUT", s2l "eee", 80, none⟩]
      3 "TOOL_RESULTS" ["CURRENT_INPUT"] 7
      [⟨"TOOL_RESULTS", s2l "dddd", 85, none⟩, ⟨"CURRENT_INPUT", s2l "eee", 80, none⟩]
      [] [⟨"CURRENT_INPUT", s2l "eee", 80, none⟩] ⟨"TOOL_RESULTS", s2l "dddd", 85, none⟩
      (by decide) (by decide) (by decide) (by decide) (by decide) (by decide)
      (by decide) (by decide)).1,
    (trimmable_block_vanishes
      [⟨"TOOL_RESULTS", s2l "dddd", 85, none⟩, ⟨"CURRENT_INPUT", s2l "eee", 80, none⟩]
      3 "TOOL_RESULTS" ["CURRENT_INPUT"] 7
      [⟨"TOOL_RESULTS", s2l "dddd", 85, none⟩, ⟨"CURRENT_INPUT", s2l "eee", 80, none⟩]
      [] [⟨"CURRENT_INPUT", s2l "eee", 80, none⟩] ⟨"TOOL_RESULTS", s2l "dddd", 85, none⟩
      (by decide) (by decide) (by decide) (by decide) (by decide) (by decide)
      (by decide) (by decide)).2
      ⟨"CURRENT_INPUT", s2l "eee", 80, none⟩ (by decide)⟩,
   ⟨(trimmable_block_vanishes
      [⟨"ORIGINAL_QUERY", s2l "qqqq", 100, none⟩, ⟨"CURRENT_INPUT", s2l "cccc", 80, none⟩]
      3 "CURRENT_INPUT" [] 8
      [⟨"ORIGINAL_QUERY", s2l "qqqq", 100, none⟩, ⟨"CURRENT_INPUT", s2l "cccc", 80, none⟩]
      [⟨"ORIGINAL_QUERY", s2l "qqqq", 100, none⟩] [] ⟨"CURRENT_INPUT", s2l "cccc", 80, none⟩
      (by decide) (by decide) (by decide) (by decide) (by decide) (by decide)
      (by decide) (by decide)).1,
    (trimmable_block_vanishes
      [⟨"ORIGINAL_QUERY", s2l "qqqq", 100, none⟩, ⟨"CURRENT_INPUT", s2l "cccc", 80, none⟩]
      3 "CURRENT_INPUT" [] 8
      [⟨"ORIGINAL_QUERY", s2l "qqqq", 100, none⟩, ⟨"CURRENT_INPUT", s2l "cccc", 80, none⟩]
      [⟨"ORIGINAL_QUERY", s2l "qqqq", 100, none⟩] [] ⟨"CURRENT_INPUT", s2l "cccc", 80, none⟩
      (by decide) (by decide) (by decide) (by decide) (by decide) (by decide)
      (by decide) (by decide)).2
      ⟨"ORIGINAL_QUERY", s2l "qqqq", 100, none⟩ (by decide)⟩⟩

/-- C9 (amended): `record_payload` appends the value to the payload list of
the last iteration record regardless of its status, and begins a fresh
iteration first only when the iteration list is empty (a completed but
still-last iteration receives the payload directly, no new iteration is
begun). -/
theorem record_payload_spec (s : ConversationState) (v : Str) :
    (record_payload s v).iterations =
      (match s.iterations.getLast? with
       | none => [{ index := 1, payloads := [v] }]
       | some it => s.iterations.dropLast ++ [{ it with payloads := it.payloads ++ [v] }]) ∧
    ∀ it ∈ s.iterations.dropLast, it ∈ (record_payload s v).iterations := by
  rcases s with ⟨iters, ev, fr, sa, comp, summ, q, fq, aa, ask, asm, sit, ast⟩
  rcases iters with _ | ⟨a, as⟩
  · constructor
    · simp [record_payload, add_payload_last, begin_iteration]
    · intro it hmem
      simp at hmem
  · rcases h : (a :: as).getLast? with _ | it
    · simp at h
    · constructor
      · simp only [record_payload, List.isEmpty_cons, Bool.false_eq_true, if_false,
          add_payload_last, h]
      · intro it' hmem
        simp only [record_payload, List.isEmpty_cons, Bool.false_eq_true, if_false,
          add_payload_last, h]
        exact List.mem_append_left _ hmem

/-- C9 (counterexample): with a single already-completed (not pending)
iteration, `record_payload` does not begin a new iteration; it appends the
value to the completed iteration's payload list. -/
theorem record_payload_counterexample :
    (record_payload { iterations := [{ index := 1, status := "complete" }] } (s2l "v")).iterations =
      [{ index := 1, payloads := [s2l "v"], status := "complete" }] := by
  decide

theorem templateBaseCtx_isSome (now : Int) (s : ConversationState)
    (payload : Option PayloadData) (pstr : Option Str) (phs : List Str)
    (ctx : FormatCtx) (key : Str)
    (hc : templateBaseCtx now s payload pstr phs = some ctx) (hk : key ∈ phs) :
    (ctx key).isSome := by
  unfold templateBaseCtx at hc
  split at hc
  · exact absurd hc (by simp)
  · have hctx := Option.some.inj hc
    subst hctx
    dsimp only
    rw [if_pos hk]
    split
    · rfl
    · split <;> rfl

theorem modelFieldsPass_isSome (phs : List Str) (payload : Option PayloadData)
    (ctx : FormatCtx) (key : Str) (hk : key ∈ phs)
    (hctx : (ctx key).isSome) :
    ((modelFieldsPass phs payload ctx) key).isSome := by
  unfold modelFieldsPass
  rcases payload with _ | p
  · exact hctx
  · by_cases hM : p.isModel
    · simp only [hM, if_pos]
      induction p.fields generalizing ctx with
      | nil => exact hctx
      | cons fv fields ih =>
        rw [List.foldl_cons]
        apply ih
        by_cases hkey : fv.1.map Char.toLower ∈ phs
        · simp only [hkey, if_pos]
          by_cases hEq : key = fv.1.map Char.toLower
          · simp [hEq]
          · simp only [hEq, if_neg, if_false]
            exact hctx
        · simp only [hkey, if_neg, if_false]
          exact hctx
    · simp only [hM]
      simp only [Bool.false_eq_true, if_false]
      exact hctx

/-- On every non-raising path of the `getattr` loop, every placeholder is
already present in the context dict after that loop and the
structured-payload pass: the source's final `task`/`payload`/`input`
fallback (`key not in context_dict`) can never fire. -/
theorem serializedFallback_dead (now : Int) (s : ConversationState)
    (payload : Option PayloadData) (pstr : Option Str) (phs : List Str)
    (ctx : FormatCtx)
    (hc : templateBaseCtx now s payload pstr phs = some ctx) :
    templateContext now s payload pstr phs =
      some (modelFieldsPass phs payload ctx) := by
  unfold templateContext
  rw [hc]
  dsimp only
  congr 1
  unfold serializedFallbackPass
  rcases pstr with _ | p
  · rfl
  · have hsome : ∀ key ∈ phs,
        ((modelFieldsPass phs payload ctx) key).isSome := by
      intro key hk
      exact modelFieldsPass_isSome phs payload _ key hk
        (templateBaseCtx_isSome now s payload (some p) phs ctx key hc hk)
    have hstep : ∀ (acc : FormatCtx), (∀ key ∈ phs, (acc key).isSome) →
        ∀ (keys : List Str),
          keys.foldl (fun acc key =>
            if key ∈ phs ∧ acc key = none then
              fun name => if name = key then some p else acc name
            else acc) acc = acc := by
      intro acc hacc keys
      induction keys with
      | nil => rfl
      | cons k keys ih =>
        rw [List.foldl_cons]
        have : ¬ (k ∈ phs ∧ acc k = none) := by
          rintro ⟨hk, hnone⟩
          have := hacc k hk
          rw [hnone] at this
          simp at this
        rw [if_neg this]
        exact ih
    exact hstep _ hsome _

/-- C5: evaluation at the failing input.  Template `"\x7btask\x7d"`, a state
with no `task` attribute, a non-null payload whose serialization is
`"hello"`: the `task` placeholder renders as the empty string (the
serialized-input fallback is dead code), so the assembled block content is
empty rather than `"hello"`. -/
theorem task_placeholder_renders_empty :
    assembleM 0 {} { runtime_template := [lbrace] ++ s2l "task" ++ [rbrace] }
      (some {}) (some (s2l "hello")) =
      some [{ name := "RUNTIME_TEMPLATE", content := [], priority := 100, max_chars := none }] := by
  decide

/-- C4 (amended): whenever the runtime template is a non-empty string, the
policy enables the `RUNTIME_TEMPLATE` block, and resolving and formatting
the template succeeds — the placeholder `getattr` loop raises no error (in
particular no placeholder reads the `current_iteration` property before an
iteration exists) and every replacement field is a lowercase placeholder —
`assemble` returns exactly one block, named `RUNTIME_TEMPLATE`, carrying
the formatted template, and the renderer returns that single block's
content unchanged. -/
theorem template_mode_exclusivity (now : Int) (state : ConversationState)
    (profile : ResolvedProfile) (payload : Option PayloadData)
    (payload_str : Option Str) (bp : BlockPolicy) (r : Str)
    (hT : profile.runtime_template.isEmpty = false)
    (hbp : apply_block_policy "RUNTIME_TEMPLATE" profile.context_policy = some bp)
    (hfmt : (match templateContext now state payload payload_str
        ((findPlaceholders profile.runtime_template).dedup) with
      | some ctx => pyFormat ctx profile.runtime_template
      | none => none) = some r) :
    assembleM now state profile payload payload_str =
      some [{ name := "RUNTIME_TEMPLATE", content := r, priority := 100,
              max_chars := bp.max_chars }] ∧
    render [{ name := "RUNTIME_TEMPLATE", content := r, priority := 100,
              max_chars := bp.max_chars }] = r := by
  constructor
  · unfold assembleM build_runtime_template_block
    rw [hT]
    simp only [Bool.not_false, if_pos]
    rw [hbp]
    dsimp only
    cases htc : templateContext now state payload payload_str
        ((findPlaceholders profile.runtime_template).dedup) with
    | none =>
      rw [htc] at hfmt
      simp at hfmt
    | some ctx =>
      rw [htc] at hfmt
      dsimp only at hfmt
      dsimp only
      rw [hfmt]
  · rfl

/-- C4 (witness): a concrete template-mode assembly. -/
theorem template_mode_exclusivity_witness :
    assembleM 0 {} { runtime_template := s2l "hi" } none none =
      some [{ name := "RUNTIME_TEMPLATE", content := s2l "hi", priority := 100,
              max_chars := none }] :=
  (template_mode_exclusivity 0 {} { runtime_template := s2l "hi" } none none
    {} (s2l "hi") (by decide) (by decide) (by decide)).1

/-- C4 (counterexample): with a non-empty template, quantifying over every
state and policy fails: a policy that disables `RUNTIME_TEMPLATE` routes
assembly to the fallback blocks (here a single `ORIGINAL_QUERY` block); a
template whose replacement field is not a lowercase placeholder makes
`str.format` raise; and a template reading `\x7bcurrent_iteration\x7d` before
any iteration exists makes the placeholder `getattr` loop raise the
`current_iteration` property's `ValueError`, so no block list is returned
at all. -/
theorem template_mode_exclusivity_counterexample :
    (assembleM 0 { query := some (s2l "q") }
        { runtime_template := s2l "hello",
          context_policy := { blocks := [("RUNTIME_TEMPLATE", ⟨false, none⟩)] } }
        none none =
      some [{ name := "ORIGINAL_QUERY", content := s2l "[ORIGINAL QUERY]\nq",
              priority := 100, max_chars := none }]) ∧
    assembleM 0 {} { runtime_template := [lbrace, 'A', rbrace] } none none = none ∧
    assembleM 0 {} { runtime_template :=
        [lbrace] ++ s2l "current_iteration" ++ [rbrace] } none none = none := by
  refine ⟨by decide, by decide, by decide⟩

theorem stateAttr_time_indep (t1 t2 : Int) (s : ConversationState) (name : Str)
    (h : name ≠ s2l "elapsed_minutes") :
    stateAttr t1 s name = stateAttr t2 s name := by
  unfold stateAttr
  by_cases hci : name = s2l "current_iteration"
  · rw [if_pos hci, if_pos hci]
  · rw [if_neg hci, if_neg hci, if_neg h, if_neg h]

/-- C8 (amended): the assembly pipeline output does not depend on the
wall-clock reading as long as the runtime template does not reference the
time-dependent `elapsed_minutes` state property; every other input is an
explicit parameter, so two invocations on equal inputs are identical. -/
theorem pipeline_determinism (t1 t2 : Int) (state : ConversationState)
    (profile : ResolvedProfile) (payload : Option PayloadData) (pstr : Option Str)
    (h : s2l "elapsed_minutes" ∉ findPlaceholders profile.runtime_template) :
    buildModel t1 state profile payload pstr = buildModel t2 state profile payload pstr := by
  have hsa : ∀ name ∈ (findPlaceholders profile.runtime_template).dedup,
      stateAttr t1 state name = stateAttr t2 state name := by
    intro name hin
    exact stateAttr_time_indep t1 t2 state name
      (fun hEq => h (hEq ▸ List.mem_dedup.mp hin))
  have hguard : ∀ (l : List Str), (∀ x ∈ l, stateAttr t1 state x = stateAttr t2 state x) →
      l.any (fun ph => !(decide (ph = s2l "runtime_input") && payload.isSome) &&
          (stateAttr t1 state ph).isNone) =
        l.any (fun ph => !(decide (ph = s2l "runtime_input") && payload.isSome) &&
          (stateAttr t2 state ph).isNone) := by
    intro l hl
    induction l with
    | nil => rfl
    | cons a t ih =>
      simp only [List.any_cons]
      rw [hl a (List.mem_cons_self a t), ih (fun x hx => hl x (List.mem_cons_of_mem a hx))]
  have hbase : templateBaseCtx t1 state payload pstr
        ((findPlaceholders profile.runtime_template).dedup) =
      templateBaseCtx t2 state payload pstr
        ((findPlaceholders profile.runtime_template).dedup) := by
    unfold templateBaseCtx
    rw [hguard _ hsa]
    by_cases hg : ((findPlaceholders profile.runtime_template).dedup).any
        (fun ph => !(decide (ph = s2l "runtime_input") && payload.isSome) &&
          (stateAttr t2 state ph).isNone) = true
    · rw [if_pos hg, if_pos hg]
    · rw [if_neg hg, if_neg hg]
      congr 1
      funext name
      by_cases hin : name ∈ (findPlaceholders profile.runtime_template).dedup
      · rw [if_pos hin, if_pos hin, hsa name hin]
      · rw [if_neg hin, if_neg hin]
  have hb : build_runtime_template_block t1 state profile payload pstr profile.context_policy =
      build_runtime_template_block t2 state profile payload pstr profile.context_policy := by
    unfold build_runtime_template_block
    cases apply_block_policy "RUNTIME_TEMPLATE" profile.context_policy with
    | none => rfl
    | some bp =>
      dsimp only
      unfold templateContext
      rw [hbase]
  unfold buildModel assembleM
  dsimp only
  rw [hb]

/-- C8 (witness): concrete invocation times yield the same output when the
template avoids `elapsed_minutes`. -/
theorem pipeline_determinism_witness :
    buildModel 5 { summary := some (s2l "hello") }
        { runtime_template := s2l "hi" } none none =
      buildModel 99 { summary := some (s2l "hello") }
        { runtime_template := s2l "hi" } none none :=
  pipeline_determinism 5 99 { summary := some (s2l "hello") }
    { runtime_template := s2l "hi" } none none (by decide)

/-- C8 (counterexample): a template referencing `elapsed_minutes` makes the
output depend on the wall clock: the same state snapshot rendered at
`now = 60` and `now = 120` seconds (with `started_at = 0`) produces
different strings (`"1.0"` vs `"2.0"`). -/
theorem pipeline_determinism_counterexample :
    buildModel 60 { started_at := some 0 }
        { runtime_template := [lbrace] ++ s2l "elapsed_minutes" ++ [rbrace] } none none ≠
      buildModel 120 { started_at := some 0 }
        { runtime_template := [lbrace] ++ s2l "elapsed_minutes" ++ [rbrace] } none none := by
  decide

theorem updateLatest_keys (acc : List (Str × ContextEvent)) (n : Str) (e : ContextEvent) :
    (updateLatest acc n e).map Prod.fst =
      ((acc.map Prod.fst).filter (fun k => decide (k ≠ n))) ++ [n] := by
  unfold updateLatest
  rw [List.map_append]
  congr 1
  induction acc with
  | nil => rfl
  | cons p acc ih =>
    simp only [decide_not] at ih
    simp only [List.filter_cons, List.map_cons, decide_not]
    by_cases hp : p.1 = n
    · simp [hp, ih]
    · simp [hp, ih]

theorem dedup_append_singleton (l : List Str) (a : Str) :
    (l ++ [a]).dedup = (l.dedup.filter (fun x => decide (x ≠ a))) ++ [a] := by
  induction l with
  | nil => simp
  | cons b l ih =>
    by_cases hba : b = a
    · subst hba
      have hmem : b ∈ l ++ [b] := by simp
      rw [List.cons_append, List.dedup_cons_of_mem hmem, ih]
      by_cases hbl : b ∈ l
      · rw [List.dedup_cons_of_mem hbl]
      · rw [List.dedup_cons_of_not_mem hbl]
        simp
    · by_cases hbl : b ∈ l
      · have hmem : b ∈ l ++ [a] := by simp [hbl]
        rw [List.cons_append, List.dedup_cons_of_mem hmem, ih, List.dedup_cons_of_mem hbl]
      · have hmem : b ∉ l ++ [a] := by simp [hbl, hba]
        rw [List.cons_append, List.dedup_cons_of_not_mem hmem, ih,
          List.dedup_cons_of_not_mem hbl]
        simp [hba]

/-- C6: the `latest` dict built by `_render_tool_results` holds at most one
entry per tool name; its keys are exactly the tool names of the
`TOOL_RESULT` events ordered by each name's most recent occurrence (so
retained entries render oldest-kept-event first); and each entry's event is
the most recent `TOOL_RESULT` event carrying that tool name. -/
theorem tool_result_dedup (events : List ContextEvent) :
    ((latestToolEvents events).map Prod.fst).Nodup ∧
    ((latestToolEvents events).map Prod.fst) =
      ((events.filter (fun e => decide (e.type = "TOOL_RESULT"))).map toolNameOf).dedup ∧
    (∀ p ∈ latestToolEvents events,
      events.reverse.find?
        (fun e' => decide (e'.type = "TOOL_RESULT") && decide (toolNameOf e' = p.1)) =
        some p.2) := by
  induction events using List.reverseRecOn with
  | nil => refine ⟨by simp [latestToolEvents], by simp [latestToolEvents], ?_⟩
           intro p hp
           simp [latestToolEvents] at hp
  | append_singleton es e ih =>
    rcases ih with ⟨ihd, ihk, ihf⟩
    have hfold : latestToolEvents (es ++ [e]) =
        (if e.type = "TOOL_RESULT" then updateLatest (latestToolEvents es) (toolNameOf e) e
         else latestToolEvents es) := by
      unfold latestToolEvents
      rw [List.foldl_append]
      rfl
    by_cases hTR : e.type = "TOOL_RESULT"
    · rw [hfold, if_pos hTR]
      have hkeys := updateLatest_keys (latestToolEvents es) (toolNameOf e) e
      refine ⟨?_, ?_, ?_⟩
      · rw [hkeys]
        apply List.Nodup.append
        · exact ihd.filter _
        · simp
        · intro k hk1 hk2
          simp only [List.mem_singleton] at hk2
          subst hk2
          rcases List.mem_filter.mp hk1 with ⟨hmemk, hk⟩
          simp at hk
      · rw [hkeys, ihk]
        rw [List.filter_append, List.map_append]
        have : (List.filter (fun e' => decide (e'.type = "TOOL_RESULT")) [e]) = [e] := by
          simp [hTR]
        rw [this]
        simp only [List.map_cons, List.map_nil]
        rw [dedup_append_singleton]
      · intro p hp
        unfold updateLatest at hp
        rw [List.reverse_append]
        simp only [List.reverse_cons, List.reverse_nil, List.nil_append, List.singleton_append]
        rcases List.mem_append.mp hp with hp' | hp'
        · rw [List.mem_filter] at hp'
          rcases hp' with ⟨hmem, hne⟩
          simp only [decide_eq_true_eq] at hne
          rw [List.find?_cons]
          have : (decide (e.type = "TOOL_RESULT") && decide (toolNameOf e = p.1)) = false := by
            simp [hTR]
            intro h
            exact absurd h.symm hne
          rw [this]
          exact ihf p hmem
        · simp at hp'
          rw [hp']
          rw [List.find?_cons]
          have : (decide (e.type = "TOOL_RESULT") && decide (toolNameOf e = toolNameOf e)) = true := by
            simp [hTR]
          rw [this]
    · rw [hfold, if_neg hTR]
      refine ⟨ihd, ?_, ?_⟩
      · rw [ihk, List.filter_append]
        have : (List.filter (fun e' => decide (e'.type = "TOOL_RESULT")) [e]) = [] := by
          simp [hTR]
        rw [this]
        simp
      · intro p hp
        rw [List.reverse_append]
        simp only [List.reverse_cons, List.reverse_nil, List.nil_append, List.singleton_append]
        rw [List.find?_cons]
        have : (decide (e.type = "TOOL_RESULT") && decide (toolNameOf e = p.1)) = false := by
          simp [hTR]
        rw [this]
        exact ihf p hp

/-- C6 (witness): with two `TOOL_RESULT` events for tool `search`, the dict
keeps one entry, keyed `search`, holding the second event. -/
theorem tool_result_dedup_witness :
    (latestToolEvents
        [{ type := "TOOL_RESULT", content := s2l "first", meta := [("tool_name", s2l "search")] },
         { type := "TOOL_RESULT", content := s2l "second", meta := [("tool_name", s2l "search")] }]).map
      Prod.fst =
      ((([{ type := "TOOL_RESULT", content := s2l "first", meta := [("tool_name", s2l "search")] },
          { type := "TOOL_RESULT", content := s2l "second",
            meta := [("tool_name", s2l "search")] }] : List ContextEvent).filter
            (fun e => decide (e.type = "TOOL_RESULT"))).map toolNameOf).dedup :=
  (tool_result_dedup
    [{ type := "TOOL_RESULT", content := s2l "first", meta := [("tool_name", s2l "search")] },
     { type := "TOOL_RESULT", content := s2l "second", meta := [("tool_name", s2l "search")] }]).2.1

theorem map_fst_filterMap_sublist {α β : Type} (g : Nat × α → Option (Nat × β))
    (hg : ∀ p q, g p = some q → q.1 = p.1) :
    ∀ (l : List (Nat × α)),
      (((l.filterMap g).map Prod.fst).Sublist (l.map Prod.fst)) := by
  intro l
  induction l with
  | nil => simp
  | cons p l ih =>
    rw [List.filterMap_cons]
    cases hgp : g p with
    | none =>
      rw [List.map_cons]
      exact ih.cons _
    | some q =>
      rw [List.map_cons, List.map_cons, hg p q hgp]
      exact ih.cons₂ _

theorem historyCandidates_fst_nodup (its : List BaseIterationRecord)
    (ic ou : Bool) (ci : Option Nat) :
    ((historyCandidates its ic ou ci).map Prod.fst).Nodup := by
  unfold historyCandidates
  apply List.Sublist.nodup
  · apply map_fst_filterMap_sublist
    intro p q hpq
    simp only [Option.ite_none_right_eq_some] at hpq
    rcases hpq with ⟨_, hpq⟩
    split at hpq
    · simp at hpq
    · simp only [Option.some.injEq] at hpq
      rw [← hpq]
  · rw [List.enum_map_fst]
    exact List.nodup_range _

theorem rawTailIds_head (c0 : Nat × BaseIterationRecord × Bool)
    (rest : List (Nat × BaseIterationRecord × Bool)) (N : Nat)
    (hfst : c0.1 ∉ rest.map Prod.fst) :
    (c0.1 ∈ rawTailIds (c0 :: rest) N ↔
      (c0.2.1.is_complete = true ∧
        (rest.filter (fun d => d.2.1.is_complete)).length < N)) := by
  unfold rawTailIds
  dsimp only
  rw [List.filter_cons]
  by_cases hc : c0.2.1.is_complete = true
  · rw [if_pos hc]
    by_cases hN : N > 0
    · rw [if_pos hN]
      by_cases hk : (c0 :: rest.filter (fun d => d.2.1.is_complete)).length ≤ N
      · have : (c0 :: rest.filter (fun d => d.2.1.is_complete)).length - N = 0 := by omega
        rw [this, List.drop_zero]
        simp only [List.map_cons, List.mem_cons]
        constructor
        · intro _
          refine ⟨hc, ?_⟩
          simp only [List.length_cons] at hk
          omega
        · intro _
          exact Or.inl trivial
      · have hlen : (c0 :: rest.filter (fun d => d.2.1.is_complete)).length - N =
            ((rest.filter (fun d => d.2.1.is_complete)).length - N) + 1 := by
          simp only [List.length_cons] at hk ⊢
          omega
        rw [hlen, List.drop_succ_cons]
        constructor
        · intro hmem
          exfalso
          apply hfst
          have hsub : ((rest.filter (fun d => d.2.1.is_complete)).drop
              ((rest.filter (fun d => d.2.1.is_complete)).length - N)).Sublist rest :=
            (List.drop_sublist _ _).trans (List.filter_sublist _)
          rcases List.mem_map.mp hmem with ⟨q, hq, hq1⟩
          exact hq1 ▸ List.mem_map_of_mem Prod.fst (hsub.mem hq)
        · intro ⟨_, hcount⟩
          simp only [List.length_cons] at hk
          omega
    · rw [if_neg hN]
      simp only [List.map_nil, List.not_mem_nil, false_iff, not_and]
      intro _
      omega
  · rw [if_neg hc]
    constructor
    · intro hmem
      exfalso
      apply hfst
      by_cases hN : N > 0
      · rw [if_pos hN] at hmem
        have hsub : ((rest.filter (fun d => d.2.1.is_complete)).drop
            ((rest.filter (fun d => d.2.1.is_complete)).length - N)).Sublist rest :=
          (List.drop_sublist _ _).trans (List.filter_sublist _)
        rcases List.mem_map.mp hmem with ⟨q, hq, hq1⟩
        exact hq1 ▸ List.mem_map_of_mem Prod.fst (hsub.mem hq)
      · rw [if_neg hN] at hmem
        simp at hmem
    · intro ⟨h, _⟩
      exact absurd h hc

theorem rawTailIds_rest (c0 : Nat × BaseIterationRecord × Bool)
    (rest : List (Nat × BaseIterationRecord × Bool)) (N : Nat)
    (c : Nat × BaseIterationRecord × Bool) (hc : c ∈ rest)
    (hfst : c0.1 ∉ rest.map Prod.fst) :
    (c.1 ∈ rawTailIds (c0 :: rest) N ↔ c.1 ∈ rawTailIds rest N) := by
  unfold rawTailIds
  dsimp only
  rw [List.filter_cons]
  by_cases hcomp : c0.2.1.is_complete = true
  · rw [if_pos hcomp]
    by_cases hN : N > 0
    · rw [if_pos hN, if_pos hN]
      by_cases hk : (c0 :: rest.filter (fun d => d.2.1.is_complete)).length ≤ N
      · have h0 : (c0 :: rest.filter (fun d => d.2.1.is_complete)).length - N = 0 := by omega
        have h0' : (rest.filter (fun d => d.2.1.is_complete)).length - N = 0 := by
          simp only [List.length_cons] at hk
          omega
        rw [h0, h0', List.drop_zero, List.drop_zero]
        simp only [List.map_cons, List.mem_cons]
        constructor
        · rintro (hEq | h)
          · exfalso
            apply hfst
            rw [← hEq]
            exact List.mem_map_of_mem Prod.fst hc
          · exact h
        · intro h
          exact Or.inr h
      · have hlen : (c0 :: rest.filter (fun d => d.2.1.is_complete)).length - N =
            ((rest.filter (fun d => d.2.1.is_complete)).length - N) + 1 := by
          simp only [List.length_cons] at hk ⊢
          omega
        rw [hlen, List.drop_succ_cons]
    · rw [if_neg hN, if_neg hN]
  · rw [if_neg hcomp]

theorem historySelection_eq (N : Nat) :
    ∀ (cands : List (Nat × BaseIterationRecord × Bool)),
      ((cands.map Prod.fst).Nodup) →
      (cands.filterMap (fun c =>
        let block :=
          if c.2.2 ∧ ¬ c.2.1.is_complete then render_iteration_block c.2.1
          else if c.1 ∈ rawTailIds cands N then render_iteration_block c.2.1
          else render_iteration_digest_block c.2.1
        if block.isEmpty then none else some block)) = historySelection N cands := by
  intro cands
  induction cands with
  | nil => intro _; rfl
  | cons c0 rest ih =>
    intro hnd
    rw [List.map_cons] at hnd
    have hfst : c0.1 ∉ rest.map Prod.fst := (List.nodup_cons.mp hnd).1
    have hndr : (rest.map Prod.fst).Nodup := (List.nodup_cons.mp hnd).2
    rw [List.filterMap_cons]
    unfold historySelection
    have hblock :
        (if c0.2.2 ∧ ¬ c0.2.1.is_complete then render_iteration_block c0.2.1
         else if c0.1 ∈ rawTailIds (c0 :: rest) N then render_iteration_block c0.2.1
         else render_iteration_digest_block c0.2.1) =
        (if (c0.2.2 ∧ c0.2.1.is_complete = false) ∨
            (c0.2.1.is_complete = true ∧
              (rest.filter (fun d => d.2.1.is_complete)).length < N) then
          render_iteration_block c0.2.1
         else render_iteration_digest_block c0.2.1) := by
      by_cases hcur : c0.2.2 = true ∧ c0.2.1.is_complete = false
      · rw [if_pos (by simpa [Bool.not_eq_true] using hcur), if_pos (Or.inl hcur)]
      · have hcur' : ¬ (c0.2.2 ∧ ¬ c0.2.1.is_complete) := by
          simpa [Bool.not_eq_true] using hcur
        rw [if_neg hcur']
        by_cases hraw : c0.2.1.is_complete = true ∧
            (rest.filter (fun d => d.2.1.is_complete)).length < N
        · rw [if_pos ((rawTailIds_head c0 rest N hfst).mpr hraw), if_pos (Or.inr hraw)]
        · rw [if_neg (fun h => hraw ((rawTailIds_head c0 rest N hfst).mp h)),
            if_neg (by
              rintro (h | h)
              · exact hcur h
              · exact hraw h)]
    have htail : rest.filterMap (fun c =>
        let block :=
          if c.2.2 ∧ ¬ c.2.1.is_complete then render_iteration_block c.2.1
          else if c.1 ∈ rawTailIds (c0 :: rest) N then render_iteration_block c.2.1
          else render_iteration_digest_block c.2.1
        if block.isEmpty then none else some block) = historySelection N rest := by
      rw [← ih hndr]
      apply List.filterMap_congr
      intro c hc
      simp only [rawTailIds_rest c0 rest N c hc hfst]
    dsimp only
    rw [hblock, htail]
    by_cases hemp : (List.isEmpty (if
        (c0.2.2 = true ∧ c0.2.1.is_complete = false) ∨
        (c0.2.1.is_complete = true ∧
          (rest.filter (fun d => d.2.1.is_complete)).length < N) then
        render_iteration_block c0.2.1
      else render_iteration_digest_block c0.2.1)) = true
    · rw [if_pos hemp, if_pos hemp]
      rfl
    · rw [if_neg hemp, if_neg hemp]
      rfl

set_option maxRecDepth 8000 in
/-- C7: the history compactor renders the included incomplete current
iteration raw, renders a completed candidate raw exactly when fewer than
`raw_keep_last` completed candidates follow it (it is among the N most
recently completed), and renders every other candidate in digest form,
falling back to raw when it has no digest; with four completed iterations
carrying digests and `raw_keep_last = 2`, iterations 1 and 2 render as
digests while iterations 3 and 4 render raw. -/
theorem history_compaction_selection :
    (∀ (its : List BaseIterationRecord) (ic : Bool) (ci : Option Nat) (N : Nat),
      render_iteration_history its ic false ci N =
        stripWs (joinSep (s2l "\n\n")
          (historySelection N (historyCandidates its ic false ci)))) ∧
    render_iteration_history
      [⟨1, some (s2l "o1"), [], [], "complete", some ⟨s2l "s1", [], [], [], []⟩, false⟩,
       ⟨2, some (s2l "o2"), [], [], "complete", some ⟨s2l "s2", [], [], [], []⟩, false⟩,
       ⟨3, some (s2l "o3"), [], [], "complete", some ⟨s2l "s3", [], [], [], []⟩, false⟩,
       ⟨4, some (s2l "o4"), [], [], "complete", some ⟨s2l "s4", [], [], [], []⟩, false⟩]
      false false (some 3) 2 =
      stripWs (joinSep (s2l "\n\n")
        [render_iteration_digest_block
           ⟨1, some (s2l "o1"), [], [], "complete", some ⟨s2l "s1", [], [], [], []⟩, false⟩,
         render_iteration_digest_block
           ⟨2, some (s2l "o2"), [], [], "complete", some ⟨s2l "s2", [], [], [], []⟩, false⟩,
         render_iteration_block
           ⟨3, some (s2l "o3"), [], [], "complete", some ⟨s2l "s3", [], [], [], []⟩, false⟩,
         render_iteration_block
           ⟨4, some (s2l "o4"), [], [], "complete", some ⟨s2l "s4", [], [], [], []⟩, false⟩]) := by
  constructor
  · intro its ic ci N
    unfold render_iteration_history
    dsimp only
    rw [historySelection_eq N _ (historyCandidates_fst_nodup its ic false ci)]
  · decide

/-- C7 (witness): the general selection equality at a concrete input. -/
theorem history_compaction_selection_witness :
    render_iteration_history
        [{ index := 1, status := "complete" }, { index := 2 }] false false (some 1) 2 =
      stripWs (joinSep (s2l "\n\n")
        (historySelection 2 (historyCandidates
          [{ index := 1, status := "complete" }, { index := 2 }] false false (some 1)))) :=
  history_compaction_selection.1
    [{ index := 1, status := "complete" }, { index := 2 }] false (some 1) 2
/-!  ## Whitespace span lemmas -/

theorem leadWs_le_length (s : Str) : leadWs s ≤ s.length :=
  (List.takeWhile_sublist _).length_le

theorem trailWs_le_length (s : Str) : trailWs s ≤ s.length := by
  have := leadWs_le_length s.reverse
  simpa [trailWs] using this

theorem leadWs_cons_ws (a : Char) (s : Str) (h : pyWhitespace a = true) :
    leadWs (a :: s) = leadWs s + 1 := by
  simp [leadWs, List.takeWhile_cons, h]

theorem leadWs_cons_vis (a : Char) (s : Str) (h : pyWhitespace a = false) :
    leadWs (a :: s) = 0 := by
  simp [leadWs, List.takeWhile_cons, h]

theorem leadWs_eq_length_iff (s : Str) : leadWs s = s.length ↔ hasVisible s = false := by
  induction s with
  | nil => simp [leadWs, hasVisible]
  | cons a s ih =>
    cases ha : pyWhitespace a
    · rw [leadWs_cons_vis a s ha]
      simp [hasVisible, List.any_cons, ha]
    · rw [leadWs_cons_ws a s ha]
      simp only [List.length_cons]
      have hiff : leadWs s + 1 = s.length + 1 ↔ leadWs s = s.length := by omega
      rw [hiff, ih]
      simp [hasVisible, List.any_cons, ha]

theorem hasVisible_iff_lt (s : Str) : hasVisible s = true ↔ leadWs s < s.length := by
  have h1 := leadWs_le_length s
  have h2 := leadWs_eq_length_iff s
  cases hv : hasVisible s
  · rw [hv] at h2
    simp only [h2.mpr rfl]
    simp
  · rw [hv] at h2
    simp only [true_iff]
    have : ¬ leadWs s = s.length := by
      intro he
      exact absurd (h2.mp he) (by simp)
    omega

theorem hasVisible_append (p s : Str) :
    hasVisible (p ++ s) = (hasVisible p || hasVisible s) := by
  simp [hasVisible]

theorem hasVisible_reverse (s : Str) : hasVisible s.reverse = hasVisible s := by
  simp [hasVisible]

theorem leadWs_append_vis (p s : Str) (h : hasVisible p = true) :
    leadWs (p ++ s) = leadWs p := by
  induction p with
  | nil => simp [hasVisible] at h
  | cons a p ih =>
    cases ha : pyWhitespace a
    · rw [List.cons_append, leadWs_cons_vis a _ ha, leadWs_cons_vis a _ ha]
    · have hp : hasVisible p = true := by
        simpa [hasVisible, List.any_cons, ha] using h
      rw [List.cons_append, leadWs_cons_ws a _ ha, leadWs_cons_ws a _ ha, ih hp]

theorem leadWs_append_ws (p s : Str) (h : hasVisible p = false) :
    leadWs (p ++ s) = p.length + leadWs s := by
  induction p with
  | nil => simp
  | cons a p ih =>
    have ha : pyWhitespace a = true := by
      cases ha : pyWhitespace a
      · simp [hasVisible, List.any_cons, ha] at h
      · rfl
    have hp : hasVisible p = false := by
      simpa [hasVisible, List.any_cons, ha] using h
    rw [List.cons_append, leadWs_cons_ws a _ ha, ih hp]
    simp only [List.length_cons]
    omega

theorem trailWs_append_vis (p s : Str) (h : hasVisible s = true) :
    trailWs (p ++ s) = trailWs s := by
  unfold trailWs
  rw [List.reverse_append, leadWs_append_vis]
  rw [hasVisible_reverse]
  exact h

theorem trailWs_append_ws (p s : Str) (h : hasVisible s = false) :
    trailWs (p ++ s) = s.length + trailWs p := by
  unfold trailWs
  rw [List.reverse_append, leadWs_append_ws]
  · simp
  · rw [hasVisible_reverse]
    exact h

theorem takeWhile_length_add (p : Char → Bool) (s : Str) :
    (s.takeWhile p).length + (s.dropWhile p).length = s.length := by
  conv_rhs => rw [← List.takeWhile_append_dropWhile p s]
  exact (List.length_append _ _).symm

theorem lstripWs_length (s : Str) : (lstripWs s).length = s.length - leadWs s := by
  have := takeWhile_length_add pyWhitespace s
  unfold lstripWs leadWs at *
  omega

theorem rstripWs_length (s : Str) : (rstripWs s).length = s.length - trailWs s := by
  unfold rstripWs trailWs leadWs
  have := takeWhile_length_add pyWhitespace s.reverse
  simp only [List.length_reverse] at this ⊢
  omega

theorem lstripWs_of_ws (s : Str) (h : hasVisible s = false) : lstripWs s = [] := by
  have h1 := lstripWs_length s
  have h2 := (leadWs_eq_length_iff s).mpr h
  have h3 : (lstripWs s).length = 0 := by omega
  exact List.length_eq_zero.mp h3

theorem rstrip_decomp (s : Str) :
    s = rstripWs s ++ (s.reverse.takeWhile pyWhitespace).reverse := by
  unfold rstripWs
  conv_lhs => rw [← List.reverse_reverse s,
    ← List.takeWhile_append_dropWhile pyWhitespace s.reverse]
  rw [List.reverse_append]

theorem hasVisible_takeWhile (s : Str) : hasVisible (s.takeWhile pyWhitespace) = false := by
  simp only [hasVisible, List.any_eq_false]
  intro c hc
  have := List.mem_takeWhile_imp hc
  simp [this]

theorem hasVisible_rstrip (s : Str) : hasVisible (rstripWs s) = hasVisible s := by
  conv_rhs => rw [rstrip_decomp s]
  rw [hasVisible_append, hasVisible_reverse, hasVisible_takeWhile]
  simp

theorem leadWs_rstrip (s : Str) (h : hasVisible s = true) :
    leadWs (rstripWs s) = leadWs s := by
  conv_rhs => rw [rstrip_decomp s]
  rw [leadWs_append_vis]
  rw [hasVisible_rstrip]
  exact h

theorem stripWs_length (s : Str) : (stripWs s).length = spanWs s := by
  unfold stripWs spanWs
  cases hv : hasVisible s
  · rw [lstripWs_of_ws _ (by rw [hasVisible_rstrip]; exact hv)]
    have h2 := (leadWs_eq_length_iff s).mpr hv
    simp only [List.length_nil]
    omega
  · rw [lstripWs_length, rstripWs_length, leadWs_rstrip s hv]
    unfold leadWs trailWs
    omega

theorem spanWs_le_leftSpan (s : Str) : spanWs s ≤ leftSpan s := by
  unfold spanWs leftSpan
  omega

theorem spanWs_le_rightSpan (s : Str) : spanWs s ≤ rightSpan s := by
  unfold spanWs rightSpan
  omega

theorem leftSpan_le_length (s : Str) : leftSpan s ≤ s.length := by
  unfold leftSpan
  omega

theorem rightSpan_le_length (s : Str) : rightSpan s ≤ s.length := by
  unfold rightSpan
  omega

theorem leftSpan_pos_iff (s : Str) : 0 < leftSpan s ↔ hasVisible s = true := by
  rw [hasVisible_iff_lt]
  unfold leftSpan
  have := leadWs_le_length s
  omega

/-!  ## The StrShrink toolkit -/

theorem StrShrink_nil (c : Str) : StrShrink [] c := by
  refine ⟨?_, ?_, ?_, ?_⟩ <;>
    simp [leftSpan, rightSpan, spanWs, leadWs, trailWs]

theorem StrShrink_refl (c : Str) : StrShrink c c :=
  ⟨le_refl _, le_refl _, le_refl _, le_refl _⟩

theorem StrShrink_trans {a b c : Str} (h1 : StrShrink a b) (h2 : StrShrink b c) :
    StrShrink a c :=
  ⟨le_trans h1.1 h2.1, le_trans h1.2.1 h2.2.1, le_trans h1.2.2.1 h2.2.2.1,
   le_trans h1.2.2.2 h2.2.2.2⟩

theorem leftSpan_reverse (s : Str) : leftSpan s.reverse = rightSpan s := by
  simp [leftSpan, rightSpan, trailWs]

theorem rightSpan_reverse (s : Str) : rightSpan s.reverse = leftSpan s := by
  simp [leftSpan, rightSpan, trailWs, List.reverse_reverse]

theorem spanWs_reverse (s : Str) : spanWs s.reverse = spanWs s := by
  simp only [spanWs, trailWs, List.reverse_reverse, List.length_reverse]
  omega

theorem StrShrink_reverse {s t : Str} (h : StrShrink s t) :
    StrShrink s.reverse t.reverse := by
  refine ⟨by simpa using h.1, ?_, ?_, ?_⟩
  · rw [leftSpan_reverse, leftSpan_reverse]
    exact h.2.2.1
  · rw [rightSpan_reverse, rightSpan_reverse]
    exact h.2.1
  · rw [spanWs_reverse, spanWs_reverse]
    exact h.2.2.2

theorem leftSpan_append_mono (p s t : Str) (h1 : s.length ≤ t.length)
    (h2 : leftSpan s ≤ leftSpan t) : leftSpan (p ++ s) ≤ leftSpan (p ++ t) := by
  have hlp := leadWs_le_length p
  have has := leadWs_le_length s
  have hat := leadWs_le_length t
  cases hvp : hasVisible p
  · simp only [leftSpan] at h2 ⊢
    rw [leadWs_append_ws p s hvp, leadWs_append_ws p t hvp]
    simp only [List.length_append]
    omega
  · simp only [leftSpan] at h2 ⊢
    rw [leadWs_append_vis p s hvp, leadWs_append_vis p t hvp]
    simp only [List.length_append]
    omega

theorem rightSpan_append_mono (p s t : Str) (h2 : rightSpan s ≤ rightSpan t)
    (hvst : hasVisible s = true → hasVisible t = true) :
    rightSpan (p ++ s) ≤ rightSpan (p ++ t) := by
  have htp := trailWs_le_length p
  have hts := trailWs_le_length s
  have htt := trailWs_le_length t
  cases hvs : hasVisible s
  · simp only [rightSpan] at h2 ⊢
    rw [trailWs_append_ws p s hvs]
    cases hvt : hasVisible t
    · rw [trailWs_append_ws p t hvt]
      simp only [List.length_append]
      omega
    · rw [trailWs_append_vis p t hvt]
      simp only [List.length_append]
      omega
  · have hvt := hvst hvs
    simp only [rightSpan] at h2 ⊢
    rw [trailWs_append_vis p s hvs, trailWs_append_vis p t hvt]
    simp only [List.length_append]
    omega

theorem spanWs_append_mono (p s t : Str) (h2 : rightSpan s ≤ rightSpan t)
    (h3 : spanWs s ≤ spanWs t)
    (hvst : hasVisible s = true → hasVisible t = true) :
    spanWs (p ++ s) ≤ spanWs (p ++ t) := by
  have hlp := leadWs_le_length p
  have has := leadWs_le_length s
  have hat := leadWs_le_length t
  have htp := trailWs_le_length p
  have hts := trailWs_le_length s
  have htt := trailWs_le_length t
  cases hvs : hasVisible s
  · simp only [spanWs, rightSpan] at h2 h3 ⊢
    rw [trailWs_append_ws p s hvs]
    cases hvp : hasVisible p
    · have hse := (leadWs_eq_length_iff s).mpr hvs
      rw [leadWs_append_ws p s hvp]
      simp only [List.length_append]
      omega
    · rw [leadWs_append_vis p s hvp]
      cases hvt : hasVisible t
      · rw [trailWs_append_ws p t hvt, leadWs_append_vis p t hvp]
        simp only [List.length_append]
        omega
      · rw [trailWs_append_vis p t hvt, leadWs_append_vis p t hvp]
        simp only [List.length_append]
        omega
  · have hvt := hvst hvs
    simp only [spanWs, rightSpan] at h2 h3 ⊢
    rw [trailWs_append_vis p s hvs, trailWs_append_vis p t hvt]
    cases hvp : hasVisible p
    · rw [leadWs_append_ws p s hvp, leadWs_append_ws p t hvp]
      simp only [List.length_append]
      omega
    · rw [leadWs_append_vis p s hvp, leadWs_append_vis p t hvp]
      simp only [List.length_append]
      omega

theorem StrShrink_append_left (p s t : Str) (h : StrShrink s t) :
    StrShrink (p ++ s) (p ++ t) := by
  obtain ⟨hl, hls, hrs, hsp⟩ := h
  have hvst : hasVisible s = true → hasVisible t = true := by
    intro hv
    have hp1 := (leftSpan_pos_iff s).mpr hv
    exact (leftSpan_pos_iff t).mp (by omega)
  exact ⟨by simp only [List.length_append]; omega,
    leftSpan_append_mono p s t hl hls,
    rightSpan_append_mono p s t hrs hvst,
    spanWs_append_mono p s t hrs hsp hvst⟩

theorem StrShrink_append_right (s t q : Str) (h : StrShrink s t) :
    StrShrink (s ++ q) (t ++ q) := by
  have h1 := StrShrink_append_left q.reverse s.reverse t.reverse (StrShrink_reverse h)
  have h2 := StrShrink_reverse h1
  simpa [List.reverse_append, List.reverse_reverse] using h2

theorem StrShrink_front (s t : Str) : StrShrink s (s ++ t) := by
  have := StrShrink_append_left s [] t (StrShrink_nil t)
  simpa using this

theorem StrShrink_back (s t : Str) : StrShrink s (t ++ s) := by
  have := StrShrink_append_right [] t s (StrShrink_nil t)
  simpa using this

theorem StrShrink_take (c : Str) (k : Nat) : StrShrink (c.take k) c := by
  conv_rhs => rw [← List.take_append_drop k c]
  exact StrShrink_front _ _

theorem StrShrink_drop (c : Str) (k : Nat) : StrShrink (c.drop k) c := by
  conv_rhs => rw [← List.take_append_drop k c]
  exact StrShrink_back _ _

theorem StrShrink_take_take (c : Str) (k1 k2 : Nat) (h : k1 ≤ k2) :
    StrShrink (c.take k1) (c.take k2) := by
  have h1 : (c.take k2).take k1 = c.take k1 := by
    rw [List.take_take]
    congr 1
    omega
  rw [← h1]
  exact StrShrink_take _ _

theorem StrShrink_drop_drop (c : Str) (k1 k2 : Nat) (h : k2 ≤ k1) :
    StrShrink (c.drop k1) (c.drop k2) := by
  have h1 : (c.drop k2).drop (k1 - k2) = c.drop k1 := by
    rw [List.drop_drop]
    congr 1
    omega
  rw [← h1]
  exact StrShrink_drop _ _
/-!  ## Slicing shrinks strings monotonically -/

theorem slice_shrink_self (c : Str) (a : Int) (kt : Bool) :
    StrShrink (slice_content c a kt) c := by
  by_cases h1 : a ≤ 0
  · rw [slice_eq_of_nonpos c a kt h1]
    exact StrShrink_nil c
  · by_cases h2 : (c.length : Int) ≤ a
    · rw [slice_eq_of_fits c a kt h1 h2]
      exact StrShrink_refl c
    · by_cases h3 : '\n' ∈ c
      · by_cases h4 : a ≤ ((headerOf c).length : Int) ∨ a - (headerOf c).length - 1 ≤ 0
        · rw [slice_eq_header_cut c a kt h1 h2 h3 h4]
          have h5 : StrShrink ((headerOf c).take a.toNat) (headerOf c) := StrShrink_take _ _
          have h6 : StrShrink (headerOf c) c := by
            conv_rhs => rw [header_body_decomp c h3]
            exact StrShrink_front _ _
          exact StrShrink_trans h5 h6
        · push_neg at h4
          rw [slice_eq_header_body c a kt h1 h2 h3 (by omega)]
          have hdec2 : c = (headerOf c ++ ['\n']) ++ bodyOf c := by
            rw [List.append_assoc, List.singleton_append]
            exact header_body_decomp c h3
          have hbs : StrShrink
              (if kt then (bodyOf c).drop ((bodyOf c).length - (a - (headerOf c).length - 1).toNat)
               else (bodyOf c).take (a - (headerOf c).length - 1).toNat) (bodyOf c) := by
            by_cases hkt : kt = true
            · rw [if_pos hkt]
              exact StrShrink_drop _ _
            · rw [if_neg hkt]
              exact StrShrink_take _ _
          have hmain := StrShrink_append_left (headerOf c ++ ['\n']) _ _ hbs
          rw [← hdec2] at hmain
          simpa only [List.append_assoc, List.singleton_append] using hmain
      · rw [slice_eq_no_nl c a kt h1 h2 h3]
        by_cases hkt : kt = true
        · rw [if_pos hkt]
          exact StrShrink_drop _ _
        · rw [if_neg hkt]
          exact StrShrink_take _ _

theorem slice_shrink_mono (c : Str) (a1 a2 : Int) (kt : Bool) (h : a1 ≤ a2) :
    StrShrink (slice_content c a1 kt) (slice_content c a2 kt) := by
  by_cases h1 : a1 ≤ 0
  · rw [slice_eq_of_nonpos c a1 kt h1]
    exact StrShrink_nil _
  · by_cases hf1 : (c.length : Int) ≤ a1
    · rw [slice_eq_of_fits c a1 kt h1 hf1, slice_eq_of_fits c a2 kt (by omega) (by omega)]
      exact StrShrink_refl c
    · by_cases hf2 : (c.length : Int) ≤ a2
      · rw [slice_eq_of_fits c a2 kt (by omega) hf2]
        exact slice_shrink_self c a1 kt
      · by_cases h3 : '\n' ∈ c
        · by_cases hA2 : a2 ≤ ((headerOf c).length : Int) ∨ a2 - (headerOf c).length - 1 ≤ 0
          · have hA1 : a1 ≤ ((headerOf c).length : Int) ∨ a1 - (headerOf c).length - 1 ≤ 0 := by
              rcases hA2 with h' | h'
              · exact Or.inl (by omega)
              · exact Or.inr (by omega)
            rw [slice_eq_header_cut c a1 kt h1 hf1 h3 hA1,
                slice_eq_header_cut c a2 kt (by omega) hf2 h3 hA2]
            exact StrShrink_take_take _ _ _ (by omega)
          · by_cases hA1 : a1 ≤ ((headerOf c).length : Int) ∨ a1 - (headerOf c).length - 1 ≤ 0
            · push_neg at hA2
              rw [slice_eq_header_cut c a1 kt h1 hf1 h3 hA1,
                  slice_eq_header_body c a2 kt (by omega) hf2 h3 (by omega)]
              exact StrShrink_trans (StrShrink_take _ _) (StrShrink_front _ _)
            · push_neg at hA2
              push_neg at hA1
              rw [slice_eq_header_body c a1 kt h1 hf1 h3 (by omega),
                  slice_eq_header_body c a2 kt (by omega) hf2 h3 (by omega)]
              have hbs : StrShrink
                  (if kt then (bodyOf c).drop
                      ((bodyOf c).length - (a1 - (headerOf c).length - 1).toNat)
                   else (bodyOf c).take (a1 - (headerOf c).length - 1).toNat)
                  (if kt then (bodyOf c).drop
                      ((bodyOf c).length - (a2 - (headerOf c).length - 1).toNat)
                   else (bodyOf c).take (a2 - (headerOf c).length - 1).toNat) := by
                by_cases hkt : kt = true
                · rw [if_pos hkt, if_pos hkt]
                  exact StrShrink_drop_drop _ _ _ (by omega)
                · rw [if_neg hkt, if_neg hkt]
                  exact StrShrink_take_take _ _ _ (by omega)
              have hmain := StrShrink_append_left (headerOf c ++ ['\n']) _ _ hbs
              simpa only [List.append_assoc, List.singleton_append] using hmain
        · rw [slice_eq_no_nl c a1 kt h1 hf1 h3, slice_eq_no_nl c a2 kt (by omega) hf2 h3]
          by_cases hkt : kt = true
          · rw [if_pos hkt, if_pos hkt]
            exact StrShrink_drop_drop _ _ _ (by omega)
          · rw [if_neg hkt, if_neg hkt]
            exact StrShrink_take_take _ _ _ (by omega)
/-!  ## Tightening the budget shrinks the squeezed blocks pointwise -/

theorem ShrunkBlock_refl (b : ContextBlock) : ShrunkBlock b b :=
  ⟨rfl, rfl, rfl, StrShrink_refl _⟩

theorem ShrunkBlock_trans {a b c : ContextBlock} (h1 : ShrunkBlock a b)
    (h2 : ShrunkBlock b c) : ShrunkBlock a c :=
  ⟨h1.1.trans h2.1, h1.2.1.trans h2.2.1, h1.2.2.1.trans h2.2.2.1,
   StrShrink_trans h1.2.2.2 h2.2.2.2⟩

theorem forall2_shrunk_refl (bs : List ContextBlock) :
    List.Forall₂ ShrunkBlock bs bs := by
  induction bs with
  | nil => exact List.Forall₂.nil
  | cons b bs ih => exact List.Forall₂.cons (ShrunkBlock_refl b) ih

theorem forall2_shrunk_trans {l1 l2 l3 : List ContextBlock}
    (h1 : List.Forall₂ ShrunkBlock l1 l2) (h2 : List.Forall₂ ShrunkBlock l2 l3) :
    List.Forall₂ ShrunkBlock l1 l3 := by
  induction h1 generalizing l3 with
  | nil =>
    cases h2
    exact List.Forall₂.nil
  | cons h t ih =>
    cases h2 with
    | cons h' t' => exact List.Forall₂.cons (ShrunkBlock_trans h h') (ih t')

theorem trim_block_to_fit_shrink (b : ContextBlock) (t m : Int) :
    ShrunkBlock (trim_block_to_fit b t m).2 b := by
  simp only [trim_block_to_fit]
  split_ifs
  · exact ShrunkBlock_refl b
  · exact ⟨rfl, rfl, rfl, StrShrink_nil _⟩
  · exact ⟨rfl, rfl, rfl, slice_shrink_self _ _ _⟩

theorem trim_first_shrink (n : String) (m : Int) :
    ∀ (bs : List ContextBlock) (t : Int),
      List.Forall₂ ShrunkBlock ((trim_first n m t bs).2) bs := by
  intro bs
  induction bs with
  | nil => intro t; exact List.Forall₂.nil
  | cons b rest ih =>
    intro t
    unfold trim_first
    by_cases h : b.name = n
    · rw [if_pos h]
      exact List.Forall₂.cons (trim_block_to_fit_shrink b t m) (forall2_shrunk_refl rest)
    · rw [if_neg h]
      exact List.Forall₂.cons (ShrunkBlock_refl b) (ih t)

theorem trim_names_shrink (m : Int) :
    ∀ (ns : List String) (t : Int) (bs : List ContextBlock),
      List.Forall₂ ShrunkBlock (trim_names m ns t bs) bs := by
  intro ns
  induction ns with
  | nil => intro t bs; exact forall2_shrunk_refl bs
  | cons n ns ih =>
    intro t bs
    unfold trim_names
    by_cases h : t ≤ m
    · rw [if_pos h]
      exact forall2_shrunk_refl bs
    · rw [if_neg h]
      exact forall2_shrunk_trans (ih _ _) (trim_first_shrink n m bs t)

theorem trim_block_to_fit_twobudget (b : ContextBlock) (t m1 m2 : Int)
    (h12 : m1 ≤ m2) (hex : 0 < t - m2) :
    trim_block_to_fit b t m1 = trim_block_to_fit b t m2 ∨
    ((trim_block_to_fit b t m2).1 ≤ m2 ∧
      ShrunkBlock (trim_block_to_fit b t m1).2 (trim_block_to_fit b t m2).2) := by
  simp only [trim_block_to_fit]
  have he1 : ¬ (t - m1 ≤ 0) := by omega
  have he2 : ¬ (t - m2 ≤ 0) := by omega
  rw [if_neg he1, if_neg he2]
  by_cases ha2 : (b.content.length : Int) - (t - m2) ≤ 0
  · have ha1 : (b.content.length : Int) - (t - m1) ≤ 0 := by omega
    rw [if_pos ha1, if_pos ha2]
    left
    rfl
  · rw [if_neg ha2]
    right
    constructor
    · have hs := slice_content_length_le b.content
        ((b.content.length : Int) - (t - m2)) (b.name ∈ trimmableNames)
      have hmax : max ((b.content.length : Int) - (t - m2)) 0 =
          (b.content.length : Int) - (t - m2) := max_eq_left (by omega)
      rw [hmax] at hs
      dsimp only
      omega
    · by_cases ha1 : (b.content.length : Int) - (t - m1) ≤ 0
      · rw [if_pos ha1]
        exact ⟨rfl, rfl, rfl, StrShrink_nil _⟩
      · rw [if_neg ha1]
        exact ⟨rfl, rfl, rfl, slice_shrink_mono _ _ _ _ (by omega)⟩

theorem trim_first_twobudget (n : String) (m1 m2 : Int) (h12 : m1 ≤ m2) :
    ∀ (bs : List ContextBlock) (t : Int), 0 < t - m2 →
      trim_first n m1 t bs = trim_first n m2 t bs ∨
      ((trim_first n m2 t bs).1 ≤ m2 ∧
        List.Forall₂ ShrunkBlock ((trim_first n m1 t bs).2) ((trim_first n m2 t bs).2)) := by
  intro bs
  induction bs with
  | nil => intro t _; left; rfl
  | cons b rest ih =>
    intro t hex
    by_cases h : b.name = n
    · rcases trim_block_to_fit_twobudget b t m1 m2 h12 hex with heq | ⟨hle, hsh⟩
      · left
        unfold trim_first
        rw [if_pos h, if_pos h, heq]
      · right
        unfold trim_first
        rw [if_pos h, if_pos h]
        dsimp only
        exact ⟨hle, List.Forall₂.cons hsh (forall2_shrunk_refl rest)⟩
    · rcases ih t hex with heq | ⟨hle, hsh⟩
      · left
        unfold trim_first
        rw [if_neg h, if_neg h, heq]
      · right
        unfold trim_first
        rw [if_neg h, if_neg h]
        dsimp only
        exact ⟨hle, List.Forall₂.cons (ShrunkBlock_refl b) hsh⟩

theorem trim_names_twobudget (m1 m2 : Int) (h12 : m1 ≤ m2) :
    ∀ (ns : List String) (bs : List ContextBlock) (t : Int),
      t = (totalLen bs : Int) →
      List.Forall₂ ShrunkBlock (trim_names m1 ns t bs) (trim_names m2 ns t bs) := by
  intro ns
  induction ns with
  | nil => intro bs t _; exact forall2_shrunk_refl bs
  | cons n ns ih =>
    intro bs t ht
    by_cases hA : t ≤ m1
    · rw [trim_names_of_le m1 _ t bs hA, trim_names_of_le m2 _ t bs (by omega)]
      exact forall2_shrunk_refl bs
    · by_cases hB : t ≤ m2
      · rw [trim_names_of_le m2 _ t bs hB]
        exact trim_names_shrink m1 _ t bs
      · unfold trim_names
        rw [if_neg hA, if_neg hB]
        dsimp only
        rcases trim_first_twobudget n m1 m2 h12 bs t (by omega) with heq | ⟨hle, hsh⟩
        · rw [heq]
          refine ih _ _ ?_
          have h2 := trim_first_total n m2 bs t
          omega
        · rw [trim_names_of_le m2 ns _ _ hle]
          exact forall2_shrunk_trans (trim_names_shrink m1 ns _ _) hsh

/-!  ## The squeeze never touches blocks outside the trimmable names -/

theorem trim_first_filter_name (n : String) (m : Int) (p : String → Bool)
    (hp : p n = false) :
    ∀ (bs : List ContextBlock) (t : Int),
      ((trim_first n m t bs).2).filter (fun b => p b.name) =
        bs.filter (fun b => p b.name) := by
  intro bs
  induction bs with
  | nil => intro t; rfl
  | cons b rest ih =>
    intro t
    unfold trim_first
    by_cases h : b.name = n
    · rw [if_pos h]
      dsimp only
      rw [List.filter_cons, List.filter_cons]
      have hn1 : p ((trim_block_to_fit b t m).2).name = false := by
        rw [(trim_block_to_fit_meta b t m).1, h]
        exact hp
      have hn2 : p b.name = false := by
        rw [h]
        exact hp
      rw [hn1, hn2]
      simp
    · rw [if_neg h]
      dsimp only
      rw [List.filter_cons, List.filter_cons, ih t]

theorem trim_names_filter_name (m : Int) (p : String → Bool) :
    ∀ (ns : List String), (∀ x ∈ ns, p x = false) →
      ∀ (t : Int) (bs : List ContextBlock),
        (trim_names m ns t bs).filter (fun b => p b.name) =
          bs.filter (fun b => p b.name) := by
  intro ns
  induction ns with
  | nil => intro _ t bs; rfl
  | cons n ns ih =>
    intro hall t bs
    unfold trim_names
    by_cases h : t ≤ m
    · rw [if_pos h]
    · rw [if_neg h]
      dsimp only
      rw [ih (fun x hx => hall x (List.mem_cons_of_mem n hx)) _ _,
          trim_first_filter_name n m p (hall n (List.mem_cons_self n ns)) bs t]
/-!  ## Insertion sort: permutation, sortedness, stability -/

theorem insertLe_perm {α : Type} (le : α → α → Bool) (a : α) (l : List α) :
    (insertLe le a l).Perm (a :: l) := by
  induction l with
  | nil => exact List.Perm.refl _
  | cons b bs ih =>
    unfold insertLe
    by_cases h : le a b
    · rw [if_pos h]
    · rw [if_neg h]
      exact (ih.cons b).trans (List.Perm.swap a b bs)

theorem sortLe_perm {α : Type} (le : α → α → Bool) (l : List α) :
    (sortLe le l).Perm l := by
  induction l with
  | nil => exact List.Perm.refl _
  | cons a as ih =>
    unfold sortLe
    exact (insertLe_perm le a (sortLe le as)).trans (ih.cons a)

theorem insertLe_pairwise {α : Type} (le : α → α → Bool)
    (htot : ∀ x y, le x y = true ∨ le y x = true)
    (htr : ∀ x y z, le x y = true → le y z = true → le x z = true)
    (a : α) (l : List α) (hl : l.Pairwise (fun x y => le x y = true)) :
    (insertLe le a l).Pairwise (fun x y => le x y = true) := by
  induction l with
  | nil =>
    unfold insertLe
    exact List.pairwise_singleton _ a
  | cons b bs ih =>
    unfold insertLe
    by_cases h : le a b
    · rw [if_pos h]
      refine List.Pairwise.cons ?_ hl
      intro x hx
      rcases List.mem_cons.mp hx with he | hx'
      · rw [he]
        exact h
      · exact htr a b x h (List.rel_of_pairwise_cons hl hx')
    · rw [if_neg h]
      have hab : le b a = true := (htot a b).resolve_left h
      obtain ⟨hb, hbs⟩ := List.pairwise_cons.mp hl
      refine List.Pairwise.cons ?_ (ih hbs)
      intro x hx
      have hx' := (insertLe_perm le a bs).mem_iff.mp hx
      rcases List.mem_cons.mp hx' with he | hx''
      · rw [he]
        exact hab
      · exact hb x hx''

theorem sortLe_pairwise {α : Type} (le : α → α → Bool)
    (htot : ∀ x y, le x y = true ∨ le y x = true)
    (htr : ∀ x y z, le x y = true → le y z = true → le x z = true)
    (l : List α) : (sortLe le l).Pairwise (fun x y => le x y = true) := by
  induction l with
  | nil => exact List.Pairwise.nil
  | cons a as ih =>
    unfold sortLe
    exact insertLe_pairwise le htot htr a _ ih

theorem sorted_perm_unique {α : Type} (le : α → α → Bool) :
    ∀ (l1 l2 : List α), l1.Perm l2 →
      l1.Pairwise (fun x y => le x y = true) →
      l2.Pairwise (fun x y => le x y = true) →
      (∀ x y, x ∈ l1 → y ∈ l1 → le x y = true → le y x = true → x = y) →
      l1 = l2 := by
  intro l1
  induction l1 with
  | nil =>
    intro l2 hp _ _ _
    exact (List.Perm.eq_nil hp.symm).symm
  | cons a t1 ih =>
    intro l2 hp hs1 hs2 hanti
    cases l2 with
    | nil =>
      have := hp.length_eq
      simp at this
    | cons b t2 =>
      have hab : a = b := by
        by_cases heq : a = b
        · exact heq
        · have hbmem : b ∈ a :: t1 := hp.mem_iff.mpr (List.mem_cons_self b t2)
          have hamem : a ∈ b :: t2 := hp.mem_iff.mp (List.mem_cons_self a t1)
          have h1 : le a b = true := by
            rcases List.mem_cons.mp hbmem with he | hb'
            · exact absurd he.symm heq
            · exact List.rel_of_pairwise_cons hs1 hb'
          have h2 : le b a = true := by
            rcases List.mem_cons.mp hamem with he | ha'
            · exact absurd he.symm (fun hx => heq hx.symm)
            · exact List.rel_of_pairwise_cons hs2 ha'
          exact hanti a b (List.mem_cons_self a t1) hbmem h1 h2
      subst hab
      have ht : t1.Perm t2 := hp.cons_inv
      rw [ih t2 ht (List.pairwise_cons.mp hs1).2 (List.pairwise_cons.mp hs2).2
        (fun x y hx hy => hanti x y (List.mem_cons_of_mem a hx) (List.mem_cons_of_mem a hy))]

/-!  ## Index facts about `enum` -/

theorem le_fst_of_mem_enumFrom {α : Type} (x : Nat × α) :
    ∀ (l : List α) (n : Nat), x ∈ List.enumFrom n l → n ≤ x.1 := by
  intro l
  induction l with
  | nil => intro n h; simp [List.enumFrom] at h
  | cons a t ih =>
    intro n h
    rw [List.enumFrom_cons] at h
    rcases List.mem_cons.mp h with he | h'
    · rw [he]
    · have := ih (n + 1) h'
      omega

theorem enumFrom_fst_lt {α : Type} :
    ∀ (l : List α) (n : Nat),
      (List.enumFrom n l).Pairwise (fun x y => x.1 < y.1) := by
  intro l
  induction l with
  | nil => intro n; exact List.Pairwise.nil
  | cons a t ih =>
    intro n
    rw [List.enumFrom_cons]
    refine List.Pairwise.cons ?_ (ih (n + 1))
    intro x hx
    have := le_fst_of_mem_enumFrom x t (n + 1) hx
    omega

theorem enum_fst_lt {α : Type} (l : List α) :
    l.enum.Pairwise (fun x y => x.1 < y.1) :=
  enumFrom_fst_lt l 0

/-!  ## The sort key is total, transitive, and injective on indices -/

theorem blockKeyLe_total (x y : Nat × ContextBlock) :
    blockKeyLe x y = true ∨ blockKeyLe y x = true := by
  unfold blockKeyLe
  by_cases h1 : y.2.priority < x.2.priority
  · left; simp [h1]
  · by_cases h2 : x.2.priority < y.2.priority
    · right; simp [h2]
    · have he : x.2.priority = y.2.priority := by omega
      by_cases h3 : x.1 ≤ y.1
      · left; simp [he, h3]
      · right
        have h4 : y.1 ≤ x.1 := by omega
        simp [he.symm, h4]

theorem blockKeyLe_trans (x y z : Nat × ContextBlock)
    (hxy : blockKeyLe x y = true) (hyz : blockKeyLe y z = true) :
    blockKeyLe x z = true := by
  unfold blockKeyLe at *
  simp only [Bool.or_eq_true, Bool.and_eq_true, decide_eq_true_eq] at *
  rcases hxy with h | ⟨h1, h2⟩ <;> rcases hyz with h' | ⟨h1', h2'⟩
  · left; omega
  · left; omega
  · left; omega
  · right; exact ⟨by omega, by omega⟩

theorem blockKeyLe_antisymm_fst (x y : Nat × ContextBlock)
    (hxy : blockKeyLe x y = true) (hyx : blockKeyLe y x = true) : x.1 = y.1 := by
  unfold blockKeyLe at *
  simp only [Bool.or_eq_true, Bool.and_eq_true, decide_eq_true_eq] at *
  rcases hxy with h | ⟨h1, h2⟩ <;> rcases hyx with h' | ⟨h1', h2'⟩ <;> omega

/-!  ## Sorting commutes with filtering (stability on distinct indices) -/

theorem sortLe_filter_comm (q : Nat × ContextBlock → Bool)
    (l : List (Nat × ContextBlock))
    (hnd : l.Pairwise (fun x y => x.1 ≠ y.1)) :
    sortLe blockKeyLe (l.filter q) = (sortLe blockKeyLe l).filter q := by
  apply sorted_perm_unique blockKeyLe
  · exact (sortLe_perm _ _).trans ((sortLe_perm blockKeyLe l).filter q).symm
  · exact sortLe_pairwise blockKeyLe blockKeyLe_total blockKeyLe_trans _
  · exact List.Pairwise.filter q (sortLe_pairwise blockKeyLe blockKeyLe_total blockKeyLe_trans l)
  · intro x y hx hy hxy hyx
    have hxm : x ∈ l := (List.filter_sublist l).subset
      ((sortLe_perm blockKeyLe (l.filter q)).mem_iff.mp hx)
    have hym : y ∈ l := (List.filter_sublist l).subset
      ((sortLe_perm blockKeyLe (l.filter q)).mem_iff.mp hy)
    have hfst := blockKeyLe_antisymm_fst x y hxy hyx
    by_contra hne
    have hsym : Symmetric (fun x y : Nat × ContextBlock => x.1 ≠ y.1) :=
      fun a b h he => h he.symm
    exact absurd hfst (List.Pairwise.forall hsym hnd hxm hym hne)
/-!  ## Sorting two pointwise-shrunk enumerations in parallel -/

theorem forall2_enumFrom {l1 l2 : List ContextBlock}
    (h : List.Forall₂ ShrunkBlock l1 l2) :
    ∀ n, List.Forall₂ (fun x y : Nat × ContextBlock => x.1 = y.1 ∧ ShrunkBlock x.2 y.2)
      (List.enumFrom n l1) (List.enumFrom n l2) := by
  induction h with
  | nil => intro n; exact List.Forall₂.nil
  | cons hh ht ih =>
    intro n
    rw [List.enumFrom_cons, List.enumFrom_cons]
    exact List.Forall₂.cons ⟨rfl, hh⟩ (ih (n + 1))

theorem blockKeyLe_congr {x1 x2 y1 y2 : Nat × ContextBlock}
    (hx : x1.1 = x2.1 ∧ ShrunkBlock x1.2 x2.2)
    (hy : y1.1 = y2.1 ∧ ShrunkBlock y1.2 y2.2) :
    blockKeyLe x1 y1 = blockKeyLe x2 y2 := by
  unfold blockKeyLe
  rw [hx.1, hy.1, hx.2.2.1, hy.2.2.1]

theorem insertLe_forall2 {a1 a2 : Nat × ContextBlock}
    (ha : a1.1 = a2.1 ∧ ShrunkBlock a1.2 a2.2) :
    ∀ {s1 s2 : List (Nat × ContextBlock)},
      List.Forall₂ (fun x y => x.1 = y.1 ∧ ShrunkBlock x.2 y.2) s1 s2 →
      List.Forall₂ (fun x y => x.1 = y.1 ∧ ShrunkBlock x.2 y.2)
        (insertLe blockKeyLe a1 s1) (insertLe blockKeyLe a2 s2) := by
  intro s1 s2 h
  induction h with
  | nil => exact List.Forall₂.cons ha List.Forall₂.nil
  | @cons x y t1 t2 hh ht ih =>
    unfold insertLe
    rw [blockKeyLe_congr ha hh]
    by_cases hc : blockKeyLe a2 y = true
    · rw [if_pos hc, if_pos hc]
      exact List.Forall₂.cons ha (List.Forall₂.cons hh ht)
    · rw [if_neg hc, if_neg hc]
      exact List.Forall₂.cons hh ih

theorem sortLe_forall2 {l1 l2 : List (Nat × ContextBlock)}
    (h : List.Forall₂ (fun x y => x.1 = y.1 ∧ ShrunkBlock x.2 y.2) l1 l2) :
    List.Forall₂ (fun x y => x.1 = y.1 ∧ ShrunkBlock x.2 y.2)
      (sortLe blockKeyLe l1) (sortLe blockKeyLe l2) := by
  induction h with
  | nil => exact List.Forall₂.nil
  | @cons x y t1 t2 hh ht ih =>
    unfold sortLe
    exact insertLe_forall2 hh ih

/-!  ## The sorted order depends only on the blocks, not their packaging -/

theorem insertLe_map_snd (a1 a2 : Nat × ContextBlock) :
    ∀ (s1 : List (Nat × ContextBlock)) (s2 : List (Nat × ContextBlock)),
      s1.map Prod.snd = s2.map Prod.snd →
      a1.2 = a2.2 →
      (∀ x ∈ s1, a1.1 ≤ x.1) → (∀ x ∈ s2, a2.1 ≤ x.1) →
      (insertLe blockKeyLe a1 s1).map Prod.snd =
        (insertLe blockKeyLe a2 s2).map Prod.snd := by
  intro s1
  induction s1 with
  | nil =>
    intro s2 hm ha _ _
    cases s2 with
    | nil => simp [insertLe, ha]
    | cons b2 t2 => simp at hm
  | cons b1 t1 ih =>
    intro s2 hm ha h1 h2
    cases s2 with
    | nil => simp at hm
    | cons b2 t2 =>
      simp only [List.map_cons, List.cons.injEq] at hm
      obtain ⟨hb, ht⟩ := hm
      have hcond : blockKeyLe a1 b1 = blockKeyLe a2 b2 := by
        unfold blockKeyLe
        rw [hb, ha]
        have hx1 : a1.1 ≤ b1.1 := h1 b1 (List.mem_cons_self b1 t1)
        have hx2 : a2.1 ≤ b2.1 := h2 b2 (List.mem_cons_self b2 t2)
        simp [hx1, hx2]
      unfold insertLe
      rw [hcond]
      by_cases hc : blockKeyLe a2 b2 = true
      · rw [if_pos hc, if_pos hc]
        simp only [List.map_cons]
        rw [hb, ht, ha]
      · rw [if_neg hc, if_neg hc]
        simp only [List.map_cons]
        rw [hb, ih t2 ht ha (fun x hx => h1 x (List.mem_cons_of_mem _ hx))
          (fun x hx => h2 x (List.mem_cons_of_mem _ hx))]

theorem sortLe_map_snd :
    ∀ (l1 : List (Nat × ContextBlock)) (l2 : List (Nat × ContextBlock)),
      l1.map Prod.snd = l2.map Prod.snd →
      l1.Pairwise (fun x y => x.1 < y.1) → l2.Pairwise (fun x y => x.1 < y.1) →
      (sortLe blockKeyLe l1).map Prod.snd = (sortLe blockKeyLe l2).map Prod.snd := by
  intro l1
  induction l1 with
  | nil =>
    intro l2 hm _ _
    cases l2 with
    | nil => rfl
    | cons b t => simp at hm
  | cons a1 t1 ih =>
    intro l2 hm hp1 hp2
    cases l2 with
    | nil => simp at hm
    | cons a2 t2 =>
      simp only [List.map_cons, List.cons.injEq] at hm
      obtain ⟨hA, hT⟩ := hm
      unfold sortLe
      refine insertLe_map_snd a1 a2 (sortLe blockKeyLe t1) (sortLe blockKeyLe t2)
        (ih t2 hT (List.pairwise_cons.mp hp1).2 (List.pairwise_cons.mp hp2).2) hA ?_ ?_
      · intro x hx
        have hx' : x ∈ t1 := (sortLe_perm blockKeyLe t1).mem_iff.mp hx
        exact le_of_lt (List.rel_of_pairwise_cons hp1 hx')
      · intro x hx
        have hx' : x ∈ t2 := (sortLe_perm blockKeyLe t2).mem_iff.mp hx
        exact le_of_lt (List.rel_of_pairwise_cons hp2 hx')

/-!  ## Dropped blank blocks do not change the rendered join -/

theorem filter_map_comm {α β : Type} (f : α → β) (p : β → Bool) (l : List α) :
    (l.map f).filter p = (l.filter (fun x => p (f x))).map f := by
  induction l with
  | nil => rfl
  | cons a t ih =>
    simp only [List.map_cons, List.filter_cons]
    by_cases h : p (f a) = true
    · rw [if_pos h, if_pos h, List.map_cons, ih]
    · rw [if_neg h, if_neg h, ih]

theorem filter_blank_eq_filter_visible (L : List Str) :
    L.filter (fun c => !c.isEmpty && hasVisible c) = L.filter (fun c => hasVisible c) := by
  apply List.filter_congr
  intro c _
  cases hv : hasVisible c
  · simp [hv]
  · simp [hv, hasVisible_not_empty hv]

theorem drop_empty_eq_filter (l : List ContextBlock) :
    drop_empty l = l.filter (fun b => hasVisible b.content) := by
  unfold drop_empty
  apply List.filter_congr
  intro b _
  cases hv : hasVisible b.content
  · simp [hv]
  · simp [hv, hasVisible_not_empty hv]

theorem renderJoin_drop_empty (l : List ContextBlock) :
    renderJoin (l.filter (fun b => hasVisible b.content)) = renderJoin l := by
  unfold renderJoin
  dsimp only
  rw [filter_blank_eq_filter_visible, filter_blank_eq_filter_visible]
  rw [filter_map_comm (fun p : Nat × ContextBlock => p.2.content) (fun c => hasVisible c)]
  rw [filter_map_comm (fun p : Nat × ContextBlock => p.2.content) (fun c => hasVisible c)]
  have hfix : (sortLe blockKeyLe ((l.filter (fun b => hasVisible b.content)).enum)).filter
      (fun x : Nat × ContextBlock => hasVisible x.2.content) =
      sortLe blockKeyLe ((l.filter (fun b => hasVisible b.content)).enum) := by
    apply List.filter_eq_self.mpr
    intro x hx
    have hx1 : x ∈ (l.filter (fun b => hasVisible b.content)).enum :=
      (sortLe_perm blockKeyLe _).mem_iff.mp hx
    have hx2 := (List.mem_enumFrom hx1).2.2
    have hx3 : x.2 ∈ l.filter (fun b => hasVisible b.content) := by
      rw [hx2]
      exact List.getElem_mem _
    exact @List.of_mem_filter ContextBlock (fun b => hasVisible b.content) x.2 _ hx3
  have hexch : (sortLe blockKeyLe l.enum).filter
      (fun x : Nat × ContextBlock => hasVisible x.2.content) =
      sortLe blockKeyLe (l.enum.filter
        (fun x : Nat × ContextBlock => hasVisible x.2.content)) := by
    rw [sortLe_filter_comm _ _ ((enum_fst_lt l).imp (fun h => by omega))]
  rw [hfix, hexch]
  have hsnd : ((l.filter (fun b => hasVisible b.content)).enum).map Prod.snd =
      (l.enum.filter (fun x : Nat × ContextBlock => hasVisible x.2.content)).map Prod.snd := by
    rw [List.enum_map_snd]
    rw [← filter_map_comm Prod.snd (fun b : ContextBlock => hasVisible b.content) l.enum]
    rw [List.enum_map_snd]
  have hmap := sortLe_map_snd _ _ hsnd (enum_fst_lt _)
    (List.Pairwise.filter _ (enum_fst_lt l))
  have hfin : ∀ L1 L2 : List (Nat × ContextBlock), L1.map Prod.snd = L2.map Prod.snd →
      L1.map (fun p => p.2.content) = L2.map (fun p => p.2.content) := by
    intro L1 L2 hL
    have h1 : L1.map (fun p : Nat × ContextBlock => p.2.content) =
        (L1.map Prod.snd).map (fun b => b.content) := by
      rw [List.map_map]
      rfl
    have h2 : L2.map (fun p : Nat × ContextBlock => p.2.content) =
        (L2.map Prod.snd).map (fun b => b.content) := by
      rw [List.map_map]
      rfl
    rw [h1, h2, hL]
  rw [hfin _ _ hmap]
/-!  ## Length accounting for the stripped double-newline join -/

theorem joinSep_vis (sep : Str) :
    ∀ (cs : List Str), cs ≠ [] → (∀ c ∈ cs, hasVisible c = true) →
      hasVisible (joinSep sep cs) = true := by
  intro cs
  induction cs with
  | nil => intro h _; exact absurd rfl h
  | cons c rest ih =>
    intro _ hall
    cases rest with
    | nil => exact hall c (List.mem_cons_self c [])
    | cons d rest2 =>
      show hasVisible ((c ++ sep) ++ joinSep sep (d :: rest2)) = true
      rw [hasVisible_append, hasVisible_append]
      rw [hall c (List.mem_cons_self c _)]
      simp

theorem rightSpan_append_vis (p s : Str) (h : hasVisible s = true) :
    rightSpan (p ++ s) = p.length + rightSpan s := by
  unfold rightSpan
  rw [trailWs_append_vis p s h]
  simp only [List.length_append]
  have := trailWs_le_length s
  omega

theorem rightSpan_joinSep :
    ∀ (cs : List Str), (∀ c ∈ cs, hasVisible c = true) →
      jlenR cs = rightSpan (joinSep ['\n', '\n'] cs) := by
  intro cs
  induction cs with
  | nil => intro _; rfl
  | cons c rest ih =>
    intro hall
    cases rest with
    | nil => rfl
    | cons d rest2 =>
      have htail : ∀ x ∈ d :: rest2, hasVisible x = true :=
        fun x hx => hall x (List.mem_cons_of_mem c hx)
      have hJ : hasVisible (joinSep ['\n', '\n'] (d :: rest2)) = true :=
        joinSep_vis _ _ (by simp) htail
      show c.length + 2 + jlenR (d :: rest2) =
        rightSpan ((c ++ ['\n', '\n']) ++ joinSep ['\n', '\n'] (d :: rest2))
      rw [rightSpan_append_vis _ _ hJ, ih htail]
      simp only [List.length_append, List.length_cons, List.length_nil]

theorem stripWs_joinSep_length :
    ∀ (cs : List Str), (∀ c ∈ cs, hasVisible c = true) →
      (stripWs (joinSep ['\n', '\n'] cs)).length = jlenS cs := by
  intro cs hall
  rw [stripWs_length]
  cases cs with
  | nil => rfl
  | cons c rest =>
    cases rest with
    | nil => rfl
    | cons d rest2 =>
      have hvc : hasVisible c = true := hall c (List.mem_cons_self c _)
      have htail : ∀ x ∈ d :: rest2, hasVisible x = true :=
        fun x hx => hall x (List.mem_cons_of_mem c hx)
      have hJ : hasVisible (joinSep ['\n', '\n'] (d :: rest2)) = true :=
        joinSep_vis _ _ (by simp) htail
      show spanWs ((c ++ ['\n', '\n']) ++ joinSep ['\n', '\n'] (d :: rest2)) =
        jlenS (c :: d :: rest2)
      have hvhead : hasVisible (c ++ ['\n', '\n']) = true := by
        rw [hasVisible_append, hvc]
        simp
      have hRJ := rightSpan_joinSep (d :: rest2) htail
      unfold spanWs
      rw [leadWs_append_vis _ _ hvhead, leadWs_append_vis _ _ hvc,
        trailWs_append_vis _ _ hJ]
      simp only [jlenS, List.length_append, List.length_cons, List.length_nil]
      unfold leftSpan at *
      unfold rightSpan at hRJ
      have h1 := leadWs_le_length c
      have h2 := trailWs_le_length (joinSep ['\n', '\n'] (d :: rest2))
      omega

/-!  ## Monotonicity of the join length under RelSub -/

theorem relsub_nonempty {l1 l2 : List Str} (h : RelSub l1 l2) (hne : l1 ≠ []) :
    l2 ≠ [] := by
  cases h with
  | nil => exact absurd rfl hne
  | cons _ _ => simp
  | skip _ => simp

theorem jlenS_le_jlenR (cs : List Str) : jlenS cs ≤ jlenR cs := by
  cases cs with
  | nil => exact le_refl 0
  | cons c rest =>
    cases rest with
    | nil => exact spanWs_le_rightSpan c
    | cons d r2 =>
      simp only [jlenS, jlenR]
      have := leftSpan_le_length c
      omega

theorem jlenR_mono {l1 l2 : List Str} (h : RelSub l1 l2) : jlenR l1 ≤ jlenR l2 := by
  induction h with
  | nil => exact le_refl 0
  | @cons c1 c2 t1 t2 hh ht ih =>
    cases t1 with
    | nil =>
      cases t2 with
      | nil => exact hh.2.2.1
      | cons e r =>
        simp only [jlenR]
        have h1 := hh.2.2.1
        have h2 := rightSpan_le_length c2
        omega
    | cons e1 r1 =>
      cases t2 with
      | nil => exact absurd rfl (relsub_nonempty ht (by simp))
      | cons e2 r2 =>
        simp only [jlenR]
        have h1 := hh.1
        omega
  | @skip c2 l1 l2 ht ih =>
    cases l1 with
    | nil =>
      simp only [jlenR]
      exact Nat.zero_le _
    | cons e1 r1 =>
      cases l2 with
      | nil => exact absurd rfl (relsub_nonempty ht (by simp))
      | cons e2 r2 =>
        simp only [jlenR]
        omega

theorem jlenS_mono {l1 l2 : List Str} (h : RelSub l1 l2) : jlenS l1 ≤ jlenS l2 := by
  induction h with
  | nil => exact le_refl 0
  | @cons c1 c2 t1 t2 hh ht ih =>
    cases t1 with
    | nil =>
      cases t2 with
      | nil => exact hh.2.2.2
      | cons e r =>
        simp only [jlenS]
        have h1 := hh.2.2.2
        have h2 := spanWs_le_leftSpan c2
        omega
    | cons e1 r1 =>
      cases t2 with
      | nil => exact absurd rfl (relsub_nonempty ht (by simp))
      | cons e2 r2 =>
        simp only [jlenS]
        have h1 := hh.2.1
        have h2 := jlenR_mono ht
        omega
  | @skip c2 l1' l2' ht ih =>
    cases l1' with
    | nil =>
      simp only [jlenS]
      exact Nat.zero_le _
    | cons e1 r1 =>
      cases l2' with
      | nil => exact absurd rfl (relsub_nonempty ht (by simp))
      | cons e2 r2 =>
        simp only [jlenS]
        have h2 := jlenS_le_jlenR (e2 :: r2)
        simp only [jlenS, jlenR] at h2 ih ⊢
        omega

/-!  ## Rendering a Forall₂-shrunk block list gives a shorter string -/

theorem forall2_map_content {l1 l2 : List (Nat × ContextBlock)}
    (h : List.Forall₂ (fun x y => x.1 = y.1 ∧ ShrunkBlock x.2 y.2) l1 l2) :
    List.Forall₂ StrShrink (l1.map (fun p => p.2.content))
      (l2.map (fun p => p.2.content)) := by
  induction h with
  | nil => exact List.Forall₂.nil
  | cons hh ht ih => exact List.Forall₂.cons hh.2.2.2.2 ih

theorem forall2_filter_relsub {l1 l2 : List Str}
    (h : List.Forall₂ StrShrink l1 l2) :
    RelSub (l1.filter (fun c => hasVisible c)) (l2.filter (fun c => hasVisible c)) := by
  induction h with
  | nil => exact RelSub.nil
  | @cons c1 c2 t1 t2 hh ht ih =>
    simp only [List.filter_cons]
    by_cases h1 : hasVisible c1 = true
    · have hp1 := (leftSpan_pos_iff c1).mpr h1
      have h2 : hasVisible c2 = true := by
        have := hh.2.1
        exact (leftSpan_pos_iff c2).mp (by omega)
      rw [if_pos h1, if_pos h2]
      exact RelSub.cons hh ih
    · rw [if_neg h1]
      by_cases h2 : hasVisible c2 = true
      · rw [if_pos h2]
        exact RelSub.skip ih
      · rw [if_neg h2]
        exact ih

theorem renderJoin_length_mono {l1 l2 : List ContextBlock}
    (h : List.Forall₂ ShrunkBlock l1 l2) :
    (renderJoin l1).length ≤ (renderJoin l2).length := by
  unfold renderJoin
  dsimp only
  rw [filter_blank_eq_filter_visible, filter_blank_eq_filter_visible]
  have hsor := sortLe_forall2 (forall2_enumFrom h 0)
  have hcon := forall2_map_content hsor
  have hrel := forall2_filter_relsub hcon
  have hv1 : ∀ c ∈ (sortLe blockKeyLe l1.enum).map
      (fun p : Nat × ContextBlock => p.2.content) |>.filter (fun c => hasVisible c),
      hasVisible c = true := fun c hc => List.of_mem_filter hc
  have hv2 : ∀ c ∈ (sortLe blockKeyLe l2.enum).map
      (fun p : Nat × ContextBlock => p.2.content) |>.filter (fun c => hasVisible c),
      hasVisible c = true := fun c hc => List.of_mem_filter hc
  rw [stripWs_joinSep_length _ hv1, stripWs_joinSep_length _ hv2]
  exact jlenS_mono hrel
theorem render_eq_renderJoin (l : List ContextBlock)
    (h : ∀ b ∈ l, b.name ≠ "RUNTIME_TEMPLATE") :
    render l = renderJoin l := by
  cases l with
  | nil => rfl
  | cons a t =>
    cases t with
    | nil =>
      simp only [render]
      rw [if_neg (h a (List.mem_cons_self a []))]
    | cons b t2 => rfl

/-- C3 (amended): for finite budgets `0 < b1 ≤ b2` applied to a fixed block
list, (i) if no block is named `RUNTIME_TEMPLATE` (whose single-block
renderer special case returns content verbatim, unstripped), the rendered
output under `b1` is no longer than under `b2`; and (ii) the
`ORIGINAL_QUERY`/`RUNTIME_TEMPLATE`/`ACTIVE_SKILL`/`SKILL_INDEX` blocks of
the two trimmed lists are identical. -/
theorem budget_render_monotone (bs : List ContextBlock) (m1 m2 : Int)
    (h1 : 0 < m1) (h12 : m1 ≤ m2) :
    ((∀ b ∈ bs, b.name ≠ "RUNTIME_TEMPLATE") →
      (render (trim bs (some m1))).length ≤ (render (trim bs (some m2))).length) ∧
    (trim bs (some m1)).filter (fun b => b.name ∈ untrimmableNames) =
      (trim bs (some m2)).filter (fun b => b.name ∈ untrimmableNames) := by
  have hm1 : ¬ m1 ≤ 0 := by omega
  have hm2 : ¬ m2 ≤ 0 := by omega
  have hrel := trim_names_twobudget m1 m2 h12 trimmableNames (bs.map apply_block_limit)
    ((totalLen (bs.map apply_block_limit) : Nat) : Int) rfl
  constructor
  · intro hrt
    rw [trim_pos_eq bs m1 hm1, trim_pos_eq bs m2 hm2]
    have hnames : ∀ (m : Int), ∀ b ∈ drop_empty (trim_names m trimmableNames
        (totalLen (bs.map apply_block_limit)) (bs.map apply_block_limit)),
        b.name ≠ "RUNTIME_TEMPLATE" := by
      intro m b hb
      have hb1 := (mem_drop_empty.mp hb).1
      have hb2 : b.name ∈ (trim_names m trimmableNames
          (totalLen (bs.map apply_block_limit)) (bs.map apply_block_limit)).map
          (fun b => b.name) := List.mem_map_of_mem _ hb1
      rw [trim_names_names, apply_block_limit_names] at hb2
      obtain ⟨b0, hb0, hname⟩ := List.mem_map.mp hb2
      rw [← hname]
      exact hrt b0 hb0
    rw [render_eq_renderJoin _ (hnames m1), render_eq_renderJoin _ (hnames m2)]
    rw [drop_empty_eq_filter, drop_empty_eq_filter]
    rw [renderJoin_drop_empty, renderJoin_drop_empty]
    exact renderJoin_length_mono hrel
  · rw [trim_pos_eq bs m1 hm1, trim_pos_eq bs m2 hm2]
    rw [drop_empty_eq_filter, drop_empty_eq_filter]
    have e1 := trim_names_filter_name m1 (fun x => decide (x ∈ untrimmableNames))
      trimmableNames (by decide) (totalLen (bs.map apply_block_limit))
      (bs.map apply_block_limit)
    have e2 := trim_names_filter_name m2 (fun x => decide (x ∈ untrimmableNames))
      trimmableNames (by decide) (totalLen (bs.map apply_block_limit))
      (bs.map apply_block_limit)
    exact (List.filter_comm _ _ _).trans
      ((congrArg (List.filter (fun b => hasVisible b.content)) (e1.trans e2.symm)).trans
        (List.filter_comm _ _ _).symm)

/-- C3 witness: at budgets 2 ≤ 3 on an `ORIGINAL_QUERY`/`CURRENT_INPUT`
pair, the rendered length grows from 4 to 5 and the `ORIGINAL_QUERY` block
is identical under both budgets. -/
theorem budget_render_monotone_witness :
    (0 : Int) < 2 ∧ (2 : Int) ≤ 3 ∧
    (∀ b ∈ [(⟨"ORIGINAL_QUERY", ['q'], 0, none⟩ : ContextBlock),
      ⟨"CURRENT_INPUT", ['a', 'b', 'c'], 1, none⟩], b.name ≠ "RUNTIME_TEMPLATE") ∧
    (render (trim [(⟨"ORIGINAL_QUERY", ['q'], 0, none⟩ : ContextBlock),
        ⟨"CURRENT_INPUT", ['a', 'b', 'c'], 1, none⟩] (some 2))).length ≤
      (render (trim [(⟨"ORIGINAL_QUERY", ['q'], 0, none⟩ : ContextBlock),
        ⟨"CURRENT_INPUT", ['a', 'b', 'c'], 1, none⟩] (some 3))).length ∧
    (trim [(⟨"ORIGINAL_QUERY", ['q'], 0, none⟩ : ContextBlock),
        ⟨"CURRENT_INPUT", ['a', 'b', 'c'], 1, none⟩] (some 2)).filter
        (fun b => b.name ∈ untrimmableNames) =
      (trim [(⟨"ORIGINAL_QUERY", ['q'], 0, none⟩ : ContextBlock),
        ⟨"CURRENT_INPUT", ['a', 'b', 'c'], 1, none⟩] (some 3)).filter
        (fun b => b.name ∈ untrimmableNames) :=
  ⟨by decide, by decide, by decide,
    (budget_render_monotone [(⟨"ORIGINAL_QUERY", ['q'], 0, none⟩ : ContextBlock),
      ⟨"CURRENT_INPUT", ['a', 'b', 'c'], 1, none⟩] 2 3 (by decide) (by decide)).1
      (by decide),
    (budget_render_monotone [(⟨"ORIGINAL_QUERY", ['q'], 0, none⟩ : ContextBlock),
      ⟨"CURRENT_INPUT", ['a', 'b', 'c'], 1, none⟩] 2 3 (by decide) (by decide)).2⟩

/-- C3 counterexample to the claim as stated: with a `RUNTIME_TEMPLATE`
block of content `"R    "` and a `CURRENT_INPUT` block `"x"`, budget 6
renders 4 characters but the tighter budget 5 renders 5 (the single-block
special case returns the template verbatim, trailing whitespace included);
and at budget `b1 = 0` an `ORIGINAL_QUERY` block is removed outright while
budget 5 keeps it, so its trimmed content is not equal across budgets. -/
theorem budget_render_monotone_counterexample :
    ((render (trim [⟨"RUNTIME_TEMPLATE", 'R' :: List.replicate 4 ' ', 100, none⟩,
        ⟨"CURRENT_INPUT", ['x'], 200, none⟩] (some 6))).length <
      (render (trim [⟨"RUNTIME_TEMPLATE", 'R' :: List.replicate 4 ' ', 100, none⟩,
        ⟨"CURRENT_INPUT", ['x'], 200, none⟩] (some 5))).length) ∧
    ((trim [⟨"ORIGINAL_QUERY", ['b'], 0, none⟩] (some 0)).filter
        (fun b => b.name ∈ untrimmableNames) = [] ∧
      ((trim [⟨"ORIGINAL_QUERY", ['b'], 0, none⟩] (some 5)).filter
        (fun b => b.name ∈ untrimmableNames)).length = 1) := by
  decide
